import Mathlib

/-!
Verification of the rotated-log-file management core (`util/log/file.go`):
the filename codec (escape/unescape, `logName`, `parseLogFilename`), the
segment creator (`create`), and the multi-file entry fetcher
(`FetchEntiresFromFiles`, `readAllEntriesFromFile`).

Strings are modelled as `List Char`; Go `int64` values as unbounded `Int`
(the programs manipulate nanosecond timestamps far from the 2^63 overflow
boundary; the one place the `int64` maximum matters, the initial value of
`diffToStart`, is modelled by the explicit constant `maxInt64`).
-/

set_option linter.unusedVariables false

abbrev Str := List Char

/-- Models Go `strings.Replace(s, "_", "__", -1)` (the first step of
`escapeStringForFilename`): every underscore is doubled. -/
def expandUnderscore : Str → Str
  | [] => []
  | c :: cs =>
    if c = '_' then '_' :: '_' :: expandUnderscore cs
    else c :: expandUnderscore cs

/-- Models Go `strings.Replace(s, a, b, -1)` for one-character `a` and `b`:
every occurrence of `a` becomes `b`. -/
def replaceChar (a b : Char) (s : Str) : Str :=
  s.map (fun c => if c = a then b else c)

/-- Models Go `strings.Replace(s, "__", "_", -1)` (the second step of
`unescapeStringForFilename`): a left-to-right scan collapsing each
non-overlapping occurrence of two underscores into one. -/
def collapseDoubleUnderscore : Str → Str
  | [] => []
  | [c] => [c]
  | c :: c' :: cs =>
    if c = '_' ∧ c' = '_' then '_' :: collapseDoubleUnderscore cs
    else c :: collapseDoubleUnderscore (c' :: cs)

/-- Go `escapeStringForFilename`: double every underscore, then replace
every period with a single underscore. -/
def escapeStringForFilename (s : Str) : Str :=
  replaceChar '.' '_' (expandUnderscore s)

/-- Go `unescapeStringForFilename`: replace every underscore with a period,
then collapse double underscores (the source performs the steps in this
order). -/
def unescapeStringForFilename (s : Str) : Str :=
  collapseDoubleUnderscore (replaceChar '_' '.' s)

theorem expandUnderscore_of_no_underscore (s : Str) (h : '_' ∉ s) :
    expandUnderscore s = s := by
  induction s with
  | nil => rfl
  | cons c cs ih =>
    have hc : c ≠ '_' := fun hc => h (hc ▸ List.mem_cons_self c cs)
    simp only [expandUnderscore, if_neg hc]
    exact congrArg (c :: ·) (ih (fun hm => h (List.mem_cons_of_mem c hm)))

theorem no_underscore_replaceChar (s : Str) : '_' ∉ replaceChar '_' '.' s := by
  intro hm
  rcases List.mem_map.mp hm with ⟨c, _, hc⟩
  by_cases h : c = '_' <;> simp [h] at hc

theorem collapseDoubleUnderscore_of_no_underscore (s : Str) (h : '_' ∉ s) :
    collapseDoubleUnderscore s = s := by
  induction s using collapseDoubleUnderscore.induct with
  | case1 => rfl
  | case2 c => rfl
  | case3 c c' cs hcc ih =>
    exfalso
    exact h (hcc.1 ▸ List.mem_cons_self c (c' :: cs))
  | case4 c c' cs hcc ih =>
    simp only [collapseDoubleUnderscore, if_neg hcc]
    exact congrArg (c :: ·) (ih (fun hm => h (List.mem_cons_of_mem c hm)))

theorem replaceChar_undo (s : Str) (h : '_' ∉ s) :
    replaceChar '_' '.' (replaceChar '.' '_' s) = s := by
  induction s with
  | nil => rfl
  | cons c cs ih =>
    have hc : c ≠ '_' := fun hc => h (hc ▸ List.mem_cons_self c cs)
    have ih' := ih (fun hm => h (List.mem_cons_of_mem c hm))
    by_cases hdot : c = '.'
    · simp [replaceChar, hdot] at ih' ⊢
      exact ih'
    · simp [replaceChar, hdot, hc] at ih' ⊢
      exact ih'

/-- C4 counterexample: on the string `a_b` the escape/unescape pair is not
an inverse: escaping gives `a__b`, and unescaping that gives `a..b`
(the unescape replaces every underscore with a period before it ever looks
for double underscores, so the double-underscore collapse never fires). -/
theorem C4_unescape_escape_counterexample :
    unescapeStringForFilename (escapeStringForFilename "a_b".data) = "a..b".data ∧
      "a..b".data ≠ "a_b".data := by
  constructor
  · rfl
  · decide

/-- C4 amended: for every identity string containing no underscore
(periods may appear anywhere), unescaping inverts escaping. -/
theorem C4_unescape_escape_of_no_underscore (s : Str) (h : '_' ∉ s) :
    unescapeStringForFilename (escapeStringForFilename s) = s := by
  unfold unescapeStringForFilename escapeStringForFilename
  rw [expandUnderscore_of_no_underscore s h, replaceChar_undo s h]
  exact collapseDoubleUnderscore_of_no_underscore s
    (fun hm => absurd hm (by
      intro hm'
      have := no_underscore_replaceChar (replaceChar '.' '_' s)
      rw [replaceChar_undo s h] at this
      exact this hm'))

/-- Witness for the amended C4 round-trip at a concrete host-like string. -/
theorem C4_roundtrip_witness :
    unescapeStringForFilename (escapeStringForFilename "www.google.com".data) =
      "www.google.com".data :=
  C4_unescape_escape_of_no_underscore "www.google.com".data (by decide)

/-- Modelled from the spec: the severity enumeration (`Level` is declared
elsewhere in the repository; the known severity name set is fixed by the
source's `logFileRE` alternation `ERROR|WARNING|INFO` and by the levels the
repository's test exercises). -/
inductive Level where
  | INFO
  | WARNING
  | ERROR
deriving DecidableEq, Inhabited

/-- Modelled from the spec: `Level.String()`, the severity's name. -/
def Level.str : Level → Str
  | .INFO => "INFO".data
  | .WARNING => "WARNING".data
  | .ERROR => "ERROR".data

/-- Modelled from the spec: `LevelFromString`, the case-sensitive exact
lookup over the known severity name set. -/
def LevelFromString (s : Str) : Option Level :=
  if s = "INFO".data then some Level.INFO
  else if s = "WARNING".data then some Level.WARNING
  else if s = "ERROR".data then some Level.ERROR
  else none

/-- Modelled from the spec: a Go `time.Time` at the granularity the
repository observes through `time.RFC3339` (second precision, UTC). -/
structure GoTime where
  year : Nat
  month : Nat
  day : Nat
  hour : Nat
  minute : Nat
  second : Nat
deriving DecidableEq, Inhabited

def isLeapYear (y : Nat) : Bool :=
  y % 4 = 0 && (y % 100 != 0 || y % 400 = 0)

def daysInMonth (y m : Nat) : Nat :=
  if m = 2 then (if isLeapYear y then 29 else 28)
  else if m = 4 ∨ m = 6 ∨ m = 9 ∨ m = 11 then 30
  else 31

/-- The calendar field ranges accepted by Go's RFC3339 parser, restricted
to four-digit years so the `2006` layout field is an exact inverse. -/
def validTime (t : GoTime) : Prop :=
  1000 ≤ t.year ∧ t.year ≤ 9999 ∧ 1 ≤ t.month ∧ t.month ≤ 12 ∧
    1 ≤ t.day ∧ t.day ≤ daysInMonth t.year t.month ∧
    t.hour ≤ 23 ∧ t.minute ≤ 59 ∧ t.second ≤ 59

instance : DecidablePred validTime := fun t => by
  unfold validTime; infer_instance

def digitChar (d : Nat) : Char := Char.ofNat ('0'.toNat + d)

def digitVal (c : Char) : Nat := c.toNat - '0'.toNat

/-- Modelled from the spec: Go `t.Format(time.RFC3339)` for a UTC time at
second precision: `YYYY-MM-DDThh:mm:ssZ`. -/
def formatRFC3339 (t : GoTime) : Str :=
  [digitChar (t.year / 1000), digitChar (t.year / 100 % 10),
   digitChar (t.year / 10 % 10), digitChar (t.year % 10), '-',
   digitChar (t.month / 10), digitChar (t.month % 10), '-',
   digitChar (t.day / 10), digitChar (t.day % 10), 'T',
   digitChar (t.hour / 10), digitChar (t.hour % 10), ':',
   digitChar (t.minute / 10), digitChar (t.minute % 10), ':',
   digitChar (t.second / 10), digitChar (t.second % 10), 'Z']

/-- Modelled from the spec: Go `time.Parse(time.RFC3339, s)` restricted to
the `Z` zone designator, validating calendar field ranges as Go does. -/
def parseRFC3339 : Str → Option GoTime
  | [y1, y2, y3, y4, '-', m1, m2, '-', d1, d2, 'T',
     h1, h2, ':', n1, n2, ':', s1, s2, 'Z'] =>
    if y1.isDigit ∧ y2.isDigit ∧ y3.isDigit ∧ y4.isDigit ∧
        m1.isDigit ∧ m2.isDigit ∧ d1.isDigit ∧ d2.isDigit ∧
        h1.isDigit ∧ h2.isDigit ∧ n1.isDigit ∧ n2.isDigit ∧
        s1.isDigit ∧ s2.isDigit then
      let y := digitVal y1 * 1000 + digitVal y2 * 100 + digitVal y3 * 10 + digitVal y4
      let mo := digitVal m1 * 10 + digitVal m2
      let d := digitVal d1 * 10 + digitVal d2
      let h := digitVal h1 * 10 + digitVal h2
      let mi := digitVal n1 * 10 + digitVal n2
      let s := digitVal s1 * 10 + digitVal s2
      if 1 ≤ mo ∧ mo ≤ 12 ∧ 1 ≤ d ∧ d ≤ daysInMonth y mo ∧
          h ≤ 23 ∧ mi ≤ 59 ∧ s ≤ 59 then
        some ⟨y, mo, d, h, mi, s⟩
      else none
    else none
  | _ => none

/-- Decimal rendering of a natural number (Go `fmt` `%d` for the
nonnegative pid). -/
def toDec (n : Nat) : Str :=
  if n < 10 then [digitChar n]
  else toDec (n / 10) ++ [digitChar (n % 10)]
decreasing_by exact Nat.div_lt_self (by omega) (by omega)

/-- The process-wide identity configuration (Go package globals `pid`,
`program`, `host`, `userName`). -/
structure Config where
  pid : Nat
  program : Str
  host : Str
  userName : Str

/-- Go `logName`: builds `program.host.user.log.LEVEL.time.pid` with
escaped identity fields and the colons of the RFC3339 time replaced by
underscores, plus the symlink name `program.LEVEL` (unescaped program). -/
def logName (cfg : Config) (level : Level) (t : GoTime) : Str × Str :=
  let tFormatted := replaceChar ':' '_' (formatRFC3339 t)
  (escapeStringForFilename cfg.program ++ '.' ::
    (escapeStringForFilename cfg.host ++ '.' ::
      (escapeStringForFilename cfg.userName ++ '.' ::
        ('l' :: 'o' :: 'g' :: '.' ::
          (level.str ++ '.' :: (tFormatted ++ '.' :: toDec cfg.pid))))),
   cfg.program ++ '.' :: level.str)

/-- The decoded identity of one log segment (Go `FileDetails`). -/
structure FileDetails where
  program : Str
  host : Str
  userName : Str
  level : Level
  time : GoTime
  pid : Nat
deriving DecidableEq, Inhabited

/-- The six capture groups of `logFileRE`. -/
structure ReGroups where
  g1 : Str
  g2 : Str
  g3 : Str
  sev : Str
  timeStr : Str
  pidStr : Str
deriving DecidableEq

/-- One `([^.]+)\.` step of `logFileRE`: the characters before the first
period (the greedy run is forced to be maximal because the class excludes
the period the pattern then requires), which must be nonempty and followed
by a period. Fails when there is no period or the run is empty. -/
def fieldThenDotCore : Str → Option (Str × Str)
  | [] => none
  | c :: cs =>
    if c = '.' then some ([], cs)
    else
      match fieldThenDotCore cs with
      | some (f, rest) => some (c :: f, rest)
      | none => none

def fieldThenDot (cs : Str) : Option (Str × Str) :=
  match fieldThenDotCore cs with
  | some (f, rest) => if f = [] then none else some (f, rest)
  | none => none

/-- Literal-string matching as the regex engine performs it: does `p`
occur at the head of `s`? -/
def startsWith : Str → Str → Bool
  | [], _ => true
  | _ :: _, [] => false
  | p :: ps, c :: cs => p == c && startsWith ps cs

/-- The `(ERROR|WARNING|INFO)\.` step: RE2 tries the alternatives in
order (they are mutually exclusive, having distinct first letters), and
the matched token must be followed by a literal period. -/
def sevThenDot (cs : Str) : Option (Str × Str) :=
  if startsWith "ERROR.".data cs then some ("ERROR".data, cs.drop 6)
  else if startsWith "WARNING.".data cs then some ("WARNING".data, cs.drop 8)
  else if startsWith "INFO.".data cs then some ("INFO".data, cs.drop 5)
  else none

/-- An attempted match of `logFileRE`
(`([^.]+)\.([^.]+)\.([^.]+)\.log\.(ERROR|WARNING|INFO)\.([^.]+)\.(\d+)`)
anchored at the head of `cs`: the three leading fields, the literal
`log.`, the severity token, the time field, and a nonempty maximal digit
run for the pid; the pattern is unanchored on the right, so anything may
follow the digits. -/
def matchAt (cs : Str) : Option ReGroups :=
  match fieldThenDot cs with
  | none => none
  | some (g1, r1) =>
    match fieldThenDot r1 with
    | none => none
    | some (g2, r2) =>
      match fieldThenDot r2 with
      | none => none
      | some (g3, r3) =>
        match r3 with
        | c1 :: c2 :: c3 :: c4 :: r4 =>
          if c1 = 'l' ∧ c2 = 'o' ∧ c3 = 'g' ∧ c4 = '.' then
          match sevThenDot r4 with
          | none => none
          | some (sv, r5) =>
            match fieldThenDot r5 with
            | none => none
            | some (g5, r6) =>
              let g6 := r6.takeWhile Char.isDigit
              if g6 = [] then none
              else some ⟨g1, g2, g3, sv, g5, g6⟩
          else none
        | _ => none

/-- `logFileRE.FindStringSubmatch`: the match beginning at the leftmost
possible starting position wins. -/
def findMatch : Str → Option ReGroups
  | [] => none
  | c :: cs =>
    match matchAt (c :: cs) with
    | some g => some g
    | none => findMatch cs

def digitsVal (ds : Str) : Nat :=
  ds.foldl (fun a c => a * 10 + digitVal c) 0

def maxInt64 : Int := 9223372036854775807

/-- Go `strconv.ParseInt(s, 10, 0)` applied to the all-digit pid group:
the decimal value, unless it overflows the 64-bit platform int. -/
def parsePid (ds : Str) : Option Nat :=
  if (digitsVal ds : Int) ≤ maxInt64 then some (digitsVal ds) else none

/-- Go `parseLogFilename`: regex submatch, severity lookup, restoration of
colons in the time token, RFC3339 parse, pid parse, and unescaping of the
identity fields. Returns `none` where the source returns an error. -/
def parseLogFilename (filename : Str) : Option FileDetails :=
  match findMatch filename with
  | none => none
  | some g =>
    match LevelFromString g.sev with
    | none => none
    | some level =>
      match parseRFC3339 (replaceChar '_' ':' g.timeStr) with
      | none => none
      | some t =>
        match parsePid g.pidStr with
        | none => none
        | some pid =>
          some ⟨unescapeStringForFilename g.g1, unescapeStringForFilename g.g2,
                unescapeStringForFilename g.g3, level, t, pid⟩

theorem digitVal_digitChar {d : Nat} (h : d < 10) : digitVal (digitChar d) = d := by
  interval_cases d <;> rfl

theorem isDigit_digitChar {d : Nat} (h : d < 10) : (digitChar d).isDigit = true := by
  interval_cases d <;> rfl

theorem not_mem_replaceChar {a b : Char} (hab : b ≠ a) (s : Str) :
    a ∉ replaceChar a b s := by
  intro hm
  rcases List.mem_map.mp hm with ⟨c, _, hc⟩
  by_cases h : c = a
  · rw [if_pos h] at hc; exact hab hc
  · rw [if_neg h] at hc; exact h hc

theorem replaceChar_inv {a b : Char} (s : Str) (h : b ∉ s) :
    replaceChar b a (replaceChar a b s) = s := by
  induction s with
  | nil => rfl
  | cons c cs ih =>
    have hc : c ≠ b := fun hcb => h (hcb ▸ List.mem_cons_self c cs)
    have ih' := ih (fun hm => h (List.mem_cons_of_mem c hm))
    show (if (if c = a then b else c) = b then a else (if c = a then b else c)) ::
        replaceChar b a (replaceChar a b cs) = c :: cs
    rw [ih']
    by_cases hca : c = a
    · rw [if_pos hca, if_pos rfl, hca]
    · rw [if_neg hca, if_neg hc]

theorem no_dot_escape (s : Str) : '.' ∉ escapeStringForFilename s :=
  not_mem_replaceChar (by decide) _

theorem expandUnderscore_ne_nil {s : Str} (h : s ≠ []) : expandUnderscore s ≠ [] := by
  cases s with
  | nil => exact absurd rfl h
  | cons c cs => by_cases hc : c = '_' <;> simp [expandUnderscore, hc]

theorem escape_ne_nil {s : Str} (h : s ≠ []) : escapeStringForFilename s ≠ [] := by
  unfold escapeStringForFilename replaceChar
  intro hmap
  exact expandUnderscore_ne_nil h (List.map_eq_nil_iff.mp hmap)

theorem fieldThenDotCore_append {A : Str} (R : Str) (h : '.' ∉ A) :
    fieldThenDotCore (A ++ '.' :: R) = some (A, R) := by
  induction A with
  | nil => rfl
  | cons c cs ih =>
    have hc : c ≠ '.' := fun hceq => h (hceq ▸ List.mem_cons_self c cs)
    have ih' := ih (fun hm => h (List.mem_cons_of_mem c hm))
    simp only [List.cons_append, fieldThenDotCore, if_neg hc, List.append_eq, ih']

theorem fieldThenDot_append {A : Str} (R : Str) (hne : A ≠ []) (h : '.' ∉ A) :
    fieldThenDot (A ++ '.' :: R) = some (A, R) := by
  unfold fieldThenDot
  rw [fieldThenDotCore_append R h]
  simp [hne]

theorem fieldThenDotCore_some {cs f rest : Str}
    (h : fieldThenDotCore cs = some (f, rest)) :
    cs = f ++ '.' :: rest ∧ '.' ∉ f := by
  induction cs generalizing f rest with
  | nil => exact absurd h (by simp [fieldThenDotCore])
  | cons c cs ih =>
    by_cases hc : c = '.'
    · subst hc
      rw [show fieldThenDotCore ('.' :: cs) = some ([], cs) from rfl] at h
      injection h with hpair
      injection hpair with h1 h2
      subst h1; subst h2
      exact ⟨rfl, by simp⟩
    · simp only [fieldThenDotCore, if_neg hc] at h
      cases hm : fieldThenDotCore cs with
      | none => rw [hm] at h; exact absurd h (by simp)
      | some pr =>
        obtain ⟨f', r'⟩ := pr
        rw [hm] at h
        simp only [Option.some.injEq, Prod.mk.injEq] at h
        obtain ⟨hf, hr⟩ := h
        subst hr
        obtain ⟨hcs, hdot⟩ := ih hm
        subst hcs
        rw [← hf]
        refine ⟨rfl, ?_⟩
        intro hmem
        rcases List.mem_cons.mp hmem with heq | hmem'
        · exact hc heq.symm
        · exact hdot hmem'

theorem fieldThenDot_some {cs f rest : Str} (h : fieldThenDot cs = some (f, rest)) :
    cs = f ++ '.' :: rest ∧ '.' ∉ f ∧ f ≠ [] := by
  unfold fieldThenDot at h
  cases hm : fieldThenDotCore cs with
  | none => rw [hm] at h; exact absurd h (by simp)
  | some pr =>
    obtain ⟨f', r'⟩ := pr
    rw [hm] at h
    dsimp only at h
    by_cases hf : f' = []
    · rw [if_pos hf] at h; exact absurd h (by simp)
    · rw [if_neg hf] at h
      injection h with hpair
      injection hpair with h1 h2
      subst h1; subst h2
      obtain ⟨hcs, hdot⟩ := fieldThenDotCore_some hm
      exact ⟨hcs, hdot, hf⟩

theorem toDec_ne_nil (n : Nat) : toDec n ≠ [] := by
  unfold toDec
  split <;> simp

theorem toDec_digits (n : Nat) : ∀ c ∈ toDec n, c.isDigit = true := by
  induction n using Nat.strong_induction_on with
  | _ n ih =>
    unfold toDec
    split
    · intro c hc
      simp only [List.mem_singleton] at hc
      subst hc
      exact isDigit_digitChar (by omega)
    · intro c hc
      rcases List.mem_append.mp hc with h1 | h2
      · exact ih (n / 10) (Nat.div_lt_self (by omega) (by omega)) c h1
      · simp only [List.mem_singleton] at h2
        subst h2
        exact isDigit_digitChar (Nat.mod_lt _ (by omega))

theorem digitsVal_append_singleton (ds : Str) (c : Char) :
    digitsVal (ds ++ [c]) = digitsVal ds * 10 + digitVal c := by
  simp [digitsVal, List.foldl_append]

theorem digitsVal_toDec (n : Nat) : digitsVal (toDec n) = n := by
  induction n using Nat.strong_induction_on with
  | _ n ih =>
    unfold toDec
    split
    · simp [digitsVal, digitVal_digitChar (by omega : n < 10)]
    · rw [digitsVal_append_singleton,
        ih (n / 10) (Nat.div_lt_self (by omega) (by omega)),
        digitVal_digitChar (Nat.mod_lt _ (by omega))]
      omega

theorem daysInMonth_le (y m : Nat) : daysInMonth y m ≤ 31 := by
  unfold daysInMonth
  split
  · split <;> decide
  · split <;> decide

theorem mem_formatRFC3339 {t : GoTime} (ht : validTime t) {c : Char}
    (hc : c ∈ formatRFC3339 t) :
    c.isDigit = true ∨ c = '-' ∨ c = 'T' ∨ c = ':' ∨ c = 'Z' := by
  obtain ⟨hy1, hy2, hm1, hm2, hd1, hd2, hh, hmi, hs⟩ := ht
  have hd31 : t.day ≤ 31 := le_trans hd2 (daysInMonth_le t.year t.month)
  simp only [formatRFC3339, List.mem_cons, List.not_mem_nil, or_false] at hc
  rcases hc with rfl|rfl|rfl|rfl|rfl|rfl|rfl|rfl|rfl|rfl|rfl|rfl|rfl|rfl|rfl|rfl|rfl|rfl|rfl|rfl <;>
    first
      | decide
      | (left; exact isDigit_digitChar (by omega))

theorem no_dot_format {t : GoTime} (ht : validTime t) : '.' ∉ formatRFC3339 t := by
  intro hm
  rcases mem_formatRFC3339 ht hm with h | h | h | h | h <;> exact absurd h (by decide)

theorem no_underscore_format {t : GoTime} (ht : validTime t) :
    '_' ∉ formatRFC3339 t := by
  intro hm
  rcases mem_formatRFC3339 ht hm with h | h | h | h | h <;> exact absurd h (by decide)

theorem no_dot_timeField {t : GoTime} (ht : validTime t) :
    '.' ∉ replaceChar ':' '_' (formatRFC3339 t) := by
  intro hm
  rcases List.mem_map.mp hm with ⟨c, hcmem, hc⟩
  by_cases h : c = ':'
  · rw [if_pos h] at hc; exact absurd hc (by decide)
  · rw [if_neg h] at hc; exact no_dot_format ht (hc ▸ hcmem)

theorem timeField_ne_nil (t : GoTime) :
    replaceChar ':' '_' (formatRFC3339 t) ≠ [] := by
  simp [replaceChar, formatRFC3339]

theorem parseRFC3339_format {t : GoTime} (ht : validTime t) :
    parseRFC3339 (formatRFC3339 t) = some t := by
  obtain ⟨y, mo, d, h, mi, s⟩ := t
  obtain ⟨hy1, hy2, hm1, hm2, hd1, hd2, hh, hmi, hs⟩ := ht
  simp only at hy1 hy2 hm1 hm2 hd1 hd2 hh hmi hs
  have hd31 : d ≤ 31 := le_trans hd2 (daysInMonth_le y mo)
  simp only [formatRFC3339, parseRFC3339]
  rw [if_pos (by
    refine ⟨?_, ?_, ?_, ?_, ?_, ?_, ?_, ?_, ?_, ?_, ?_, ?_, ?_, ?_⟩ <;>
      exact isDigit_digitChar (by omega))]
  have e1 : digitVal (digitChar (y / 1000)) = y / 1000 := digitVal_digitChar (by omega)
  have e2 : digitVal (digitChar (y / 100 % 10)) = y / 100 % 10 := digitVal_digitChar (by omega)
  have e3 : digitVal (digitChar (y / 10 % 10)) = y / 10 % 10 := digitVal_digitChar (by omega)
  have e4 : digitVal (digitChar (y % 10)) = y % 10 := digitVal_digitChar (by omega)
  have e5 : digitVal (digitChar (mo / 10)) = mo / 10 := digitVal_digitChar (by omega)
  have e6 : digitVal (digitChar (mo % 10)) = mo % 10 := digitVal_digitChar (by omega)
  have e7 : digitVal (digitChar (d / 10)) = d / 10 := by
    have : d ≤ 31 := le_trans hd2 (daysInMonth_le y mo)
    exact digitVal_digitChar (by omega)
  have e8 : digitVal (digitChar (d % 10)) = d % 10 := digitVal_digitChar (by omega)
  have e9 : digitVal (digitChar (h / 10)) = h / 10 := digitVal_digitChar (by omega)
  have e10 : digitVal (digitChar (h % 10)) = h % 10 := digitVal_digitChar (by omega)
  have e11 : digitVal (digitChar (mi / 10)) = mi / 10 := digitVal_digitChar (by omega)
  have e12 : digitVal (digitChar (mi % 10)) = mi % 10 := digitVal_digitChar (by omega)
  have e13 : digitVal (digitChar (s / 10)) = s / 10 := digitVal_digitChar (by omega)
  have e14 : digitVal (digitChar (s % 10)) = s % 10 := digitVal_digitChar (by omega)
  rw [e1, e2, e3, e4, e5, e6, e7, e8, e9, e10, e11, e12, e13, e14]
  have ey : y / 1000 * 1000 + y / 100 % 10 * 100 + y / 10 % 10 * 10 + y % 10 = y := by
    omega
  have emo : mo / 10 * 10 + mo % 10 = mo := by omega
  have ed : d / 10 * 10 + d % 10 = d := by omega
  have eh : h / 10 * 10 + h % 10 = h := by omega
  have emi : mi / 10 * 10 + mi % 10 = mi := by omega
  have es : s / 10 * 10 + s % 10 = s := by omega
  rw [ey, emo, ed, eh, emi, es]
  rw [if_pos ⟨hm1, hm2, hd1, hd2, hh, hmi, hs⟩]

theorem parse_timeField_roundtrip {t : GoTime} (ht : validTime t) :
    parseRFC3339 (replaceChar '_' ':' (replaceChar ':' '_' (formatRFC3339 t))) =
      some t := by
  rw [replaceChar_inv _ (no_underscore_format ht), parseRFC3339_format ht]

theorem takeWhile_of_all {p : Char → Bool} {l : Str} (h : ∀ c ∈ l, p c = true) :
    l.takeWhile p = l := by
  induction l with
  | nil => rfl
  | cons c cs ih =>
    rw [List.takeWhile_cons, if_pos (h c (List.mem_cons_self c cs))]
    exact congrArg (c :: ·) (ih (fun x hx => h x (List.mem_cons_of_mem c hx)))

theorem sevThenDot_level (lvl : Level) (R : Str) :
    sevThenDot (lvl.str ++ '.' :: R) = some (lvl.str, R) := by
  cases lvl <;> rfl

theorem LevelFromString_str (lvl : Level) : LevelFromString lvl.str = some lvl := by
  cases lvl <;> rfl

theorem findMatch_of_matchAt {s : Str} {g : ReGroups} (hne : s ≠ [])
    (h : matchAt s = some g) : findMatch s = some g := by
  cases s with
  | nil => exact absurd rfl hne
  | cons c cs =>
    unfold findMatch
    rw [h]

theorem matchAt_logName (cfg : Config) (level : Level) (t : GoTime)
    (hp : cfg.program ≠ []) (hh : cfg.host ≠ []) (hu : cfg.userName ≠ [])
    (ht : validTime t) :
    matchAt (logName cfg level t).1 =
      some ⟨escapeStringForFilename cfg.program, escapeStringForFilename cfg.host,
            escapeStringForFilename cfg.userName, level.str,
            replaceChar ':' '_' (formatRFC3339 t), toDec cfg.pid⟩ := by
  simp only [logName]
  unfold matchAt
  rw [fieldThenDot_append _ (escape_ne_nil hp) (no_dot_escape cfg.program)]
  dsimp only
  rw [fieldThenDot_append _ (escape_ne_nil hh) (no_dot_escape cfg.host)]
  dsimp only
  rw [fieldThenDot_append _ (escape_ne_nil hu) (no_dot_escape cfg.userName)]
  dsimp only
  rw [if_pos ⟨rfl, rfl, rfl, rfl⟩]
  rw [sevThenDot_level]
  dsimp only
  rw [fieldThenDot_append _ (timeField_ne_nil t) (no_dot_timeField ht)]
  dsimp only
  rw [takeWhile_of_all (toDec_digits cfg.pid)]
  rw [if_neg (toDec_ne_nil cfg.pid)]

/-- C5: a filename produced by `logName`, at every known severity level and
for every valid timestamp (with nonempty identity fields and a pid that
fits in an int64), is successfully decoded by `parseLogFilename`, and the
decoding reproduces the original severity and timestamp; re-encoding the
decoded severity and timestamp yields the original filename. -/
theorem C5_parse_logName_roundtrip (cfg : Config) (level : Level) (t : GoTime)
    (hp : cfg.program ≠ []) (hh : cfg.host ≠ []) (hu : cfg.userName ≠ [])
    (ht : validTime t) (hpid : (cfg.pid : Int) ≤ maxInt64) :
    parseLogFilename (logName cfg level t).1 =
      some ⟨unescapeStringForFilename (escapeStringForFilename cfg.program),
            unescapeStringForFilename (escapeStringForFilename cfg.host),
            unescapeStringForFilename (escapeStringForFilename cfg.userName),
            level, t, cfg.pid⟩ ∧
      ∀ d, parseLogFilename (logName cfg level t).1 = some d →
        (logName cfg d.level d.time).1 = (logName cfg level t).1 := by
  have hne : (logName cfg level t).1 ≠ [] := by
    simp only [logName]
    intro hcontra
    exact escape_ne_nil hp (List.append_eq_nil.mp hcontra).1
  have hmain : parseLogFilename (logName cfg level t).1 =
      some ⟨unescapeStringForFilename (escapeStringForFilename cfg.program),
            unescapeStringForFilename (escapeStringForFilename cfg.host),
            unescapeStringForFilename (escapeStringForFilename cfg.userName),
            level, t, cfg.pid⟩ := by
    unfold parseLogFilename
    rw [findMatch_of_matchAt hne (matchAt_logName cfg level t hp hh hu ht)]
    dsimp only
    rw [LevelFromString_str]
    dsimp only
    rw [parse_timeField_roundtrip ht]
    dsimp only
    unfold parsePid
    rw [digitsVal_toDec]
    rw [if_pos hpid]
  refine ⟨hmain, ?_⟩
  intro d hd
  rw [hmain] at hd
  injection hd with hd'
  subst hd'
  rfl

/-- Witness for C5 at a concrete configuration, severity and timestamp. -/
theorem C5_roundtrip_witness :
    parseLogFilename
        (logName ⟨1234, "cockroach".data, "myhost".data, "root".data⟩
          Level.INFO ⟨2015, 6, 1, 12, 30, 45⟩).1 =
      some ⟨unescapeStringForFilename (escapeStringForFilename "cockroach".data),
            unescapeStringForFilename (escapeStringForFilename "myhost".data),
            unescapeStringForFilename (escapeStringForFilename "root".data),
            Level.INFO, ⟨2015, 6, 1, 12, 30, 45⟩, 1234⟩ :=
  (C5_parse_logName_roundtrip ⟨1234, "cockroach".data, "myhost".data, "root".data⟩
    Level.INFO ⟨2015, 6, 1, 12, 30, 45⟩
    (by decide) (by decide) (by decide) (by decide) (by decide)).1

def dotCount (s : Str) : Nat := s.count '.'

/-- A field of the canonical filename grammar: nonempty, period-free. -/
def fieldOk (f : Str) : Prop := f ≠ [] ∧ '.' ∉ f

instance : DecidablePred fieldOk := fun f => by
  unfold fieldOk; infer_instance

/-- The canonical grammar shape `program.host.user.log.SEVERITY.timestamp.pid`. -/
def canonName (f1 f2 f3 f5 f6 f7 : Str) : Str :=
  f1 ++ '.' :: (f2 ++ '.' :: (f3 ++ '.' ::
    ('l' :: 'o' :: 'g' :: '.' :: (f5 ++ '.' :: (f6 ++ '.' :: f7)))))

theorem startsWith_some {P s : Str} (h : startsWith P s = true) :
    ∃ r, s = P ++ r := by
  induction P generalizing s with
  | nil => exact ⟨s, rfl⟩
  | cons p ps ih =>
    cases s with
    | nil => exact absurd h (by simp [startsWith])
    | cons c cs =>
      simp only [startsWith, Bool.and_eq_true, beq_iff_eq] at h
      obtain ⟨rfl, h2⟩ := h
      obtain ⟨r, hr⟩ := ih h2
      exact ⟨r, by rw [hr, List.cons_append]⟩

theorem sevThenDot_some {cs sv r : Str} (h : sevThenDot cs = some (sv, r)) :
    cs = sv ++ '.' :: r ∧
      (sv = "ERROR".data ∨ sv = "WARNING".data ∨ sv = "INFO".data) := by
  unfold sevThenDot at h
  by_cases h1 : startsWith "ERROR.".data cs = true
  · rw [if_pos h1] at h
    injection h with hp
    injection hp with hsv hr
    subst hsv; subst hr
    obtain ⟨r0, rfl⟩ := startsWith_some h1
    exact ⟨rfl, Or.inl rfl⟩
  · rw [if_neg h1] at h
    by_cases h2 : startsWith "WARNING.".data cs = true
    · rw [if_pos h2] at h
      injection h with hp
      injection hp with hsv hr
      subst hsv; subst hr
      obtain ⟨r0, rfl⟩ := startsWith_some h2
      exact ⟨rfl, Or.inr (Or.inl rfl)⟩
    · rw [if_neg h2] at h
      by_cases h3 : startsWith "INFO.".data cs = true
      · rw [if_pos h3] at h
        injection h with hp
        injection hp with hsv hr
        subst hsv; subst hr
        obtain ⟨r0, rfl⟩ := startsWith_some h3
        exact ⟨rfl, Or.inr (Or.inr rfl)⟩
      · rw [if_neg h3] at h
        exact absurd h (by simp)

theorem dotCount_append_dot {A : Str} (R : Str) (h : '.' ∉ A) :
    dotCount (A ++ '.' :: R) = dotCount R + 1 := by
  simp [dotCount, List.count_append, List.count_cons_self, List.count_eq_zero.mpr h]

theorem dotCount_cons_ne {c : Char} (h : c ≠ '.') (R : Str) :
    dotCount (c :: R) = dotCount R := by
  simp [dotCount, List.count_cons_of_ne (Ne.symm h)]

theorem dotCount_dot_cons (R : Str) : dotCount ('.' :: R) = dotCount R + 1 := by
  simp [dotCount, List.count_cons_self]

theorem matchAt_dots {cs : Str} {g : ReGroups} (h : matchAt cs = some g) :
    6 ≤ dotCount cs := by
  unfold matchAt at h
  cases hm1 : fieldThenDot cs with
  | none => rw [hm1] at h; exact absurd h (by simp)
  | some pr1 =>
    obtain ⟨g1, r1⟩ := pr1
    rw [hm1] at h
    dsimp only at h
    cases hm2 : fieldThenDot r1 with
    | none => rw [hm2] at h; exact absurd h (by simp)
    | some pr2 =>
      obtain ⟨g2, r2⟩ := pr2
      rw [hm2] at h
      dsimp only at h
      cases hm3 : fieldThenDot r2 with
      | none => rw [hm3] at h; exact absurd h (by simp)
      | some pr3 =>
        obtain ⟨g3, r3⟩ := pr3
        rw [hm3] at h
        dsimp only at h
        cases r3 with
        | nil => simp at h
        | cons c1 t1 =>
          cases t1 with
          | nil => simp at h
          | cons c2 t2 =>
            cases t2 with
            | nil => simp at h
            | cons c3 t3 =>
              cases t3 with
              | nil => simp at h
              | cons c4 r4 =>
                dsimp only at h
                by_cases hlog : c1 = 'l' ∧ c2 = 'o' ∧ c3 = 'g' ∧ c4 = '.'
                · obtain ⟨rfl, rfl, rfl, rfl⟩ := hlog
                  rw [if_pos ⟨rfl, rfl, rfl, rfl⟩] at h
                  cases hm4 : sevThenDot r4 with
                  | none => rw [hm4] at h; exact absurd h (by simp)
                  | some pr4 =>
                    obtain ⟨sv, r5⟩ := pr4
                    rw [hm4] at h
                    dsimp only at h
                    cases hm5 : fieldThenDot r5 with
                    | none => rw [hm5] at h; exact absurd h (by simp)
                    | some pr5 =>
                      obtain ⟨g5, r6⟩ := pr5
                      obtain ⟨hcs, hd1, _⟩ := fieldThenDot_some hm1
                      obtain ⟨hr1, hd2, _⟩ := fieldThenDot_some hm2
                      obtain ⟨hr2, hd3, _⟩ := fieldThenDot_some hm3
                      obtain ⟨hr4, hsv3⟩ := sevThenDot_some hm4
                      obtain ⟨hr5, hd5, _⟩ := fieldThenDot_some hm5
                      have hsv : '.' ∉ sv := by
                        rcases hsv3 with rfl | rfl | rfl <;> decide
                      rw [hcs, dotCount_append_dot _ hd1, hr1,
                        dotCount_append_dot _ hd2, hr2, dotCount_append_dot _ hd3,
                        dotCount_cons_ne (by decide), dotCount_cons_ne (by decide),
                        dotCount_cons_ne (by decide), dotCount_dot_cons, hr4,
                        dotCount_append_dot _ hsv, hr5, dotCount_append_dot _ hd5]
                      omega
                · rw [if_neg hlog] at h
                  exact absurd h (by simp)

theorem findMatch_some_suffix {s : Str} {g : ReGroups} (h : findMatch s = some g) :
    ∃ t, List.IsSuffix t s ∧ matchAt t = some g := by
  induction s with
  | nil => simp [findMatch] at h
  | cons c cs ih =>
    unfold findMatch at h
    cases hm : matchAt (c :: cs) with
    | some g' =>
      rw [hm] at h
      injection h with h'
      subst h'
      exact ⟨c :: cs, List.suffix_rfl, hm⟩
    | none =>
      rw [hm] at h
      dsimp only at h
      obtain ⟨t, hsuf, hmt⟩ := ih h
      exact ⟨t, hsuf.trans (List.suffix_cons c cs), hmt⟩

theorem findMatch_none {s : Str}
    (h : ∀ t, List.IsSuffix t s → matchAt t = none) : findMatch s = none := by
  induction s with
  | nil => rfl
  | cons c cs ih =>
    unfold findMatch
    rw [h (c :: cs) List.suffix_rfl]
    exact ih (fun t ht => h t (ht.trans (List.suffix_cons c cs)))

theorem parseLogFilename_dots {s : Str} {d : FileDetails}
    (h : parseLogFilename s = some d) : 6 ≤ dotCount s := by
  unfold parseLogFilename at h
  cases hm : findMatch s with
  | none => rw [hm] at h; exact absurd h (by simp)
  | some g =>
    obtain ⟨t, hsuf, hmt⟩ := findMatch_some_suffix hm
    calc 6 ≤ dotCount t := matchAt_dots hmt
      _ ≤ dotCount s := hsuf.sublist.count_le '.'

theorem append_dot_inj {A B R S : Str} (hA : '.' ∉ A) (hB : '.' ∉ B)
    (h : A ++ '.' :: R = B ++ '.' :: S) : A = B ∧ R = S := by
  induction A generalizing B with
  | nil =>
    cases B with
    | nil =>
      simp only [List.nil_append] at h
      injection h with _ h2
      exact ⟨rfl, h2⟩
    | cons b bs =>
      simp only [List.nil_append, List.cons_append] at h
      injection h with h1 h2
      exfalso
      apply hB
      rw [← h1]
      exact List.mem_cons_self _ _
  | cons a as ih =>
    cases B with
    | nil =>
      simp only [List.cons_append, List.nil_append] at h
      injection h with h1 h2
      exfalso
      apply hA
      rw [h1]
      exact List.mem_cons_self _ _
    | cons b bs =>
      simp only [List.cons_append] at h
      injection h with h1 h2
      have hA' : '.' ∉ as := fun hm => hA (List.mem_cons_of_mem a hm)
      have hB' : '.' ∉ bs := fun hm => hB (List.mem_cons_of_mem b hm)
      obtain ⟨hab, hrs⟩ := ih hA' hB' h2
      exact ⟨by rw [h1, hab], hrs⟩

theorem suffix_append_cases {t A B : Str} (h : List.IsSuffix t (A ++ B)) :
    (∃ A', List.IsSuffix A' A ∧ t = A' ++ B) ∨ List.IsSuffix t B := by
  induction A with
  | nil =>
    right
    simpa using h
  | cons c cs ih =>
    rw [List.cons_append] at h
    rcases List.suffix_cons_iff.mp h with heq | hsuf
    · left
      exact ⟨c :: cs, List.suffix_rfl, by rw [heq, List.cons_append]⟩
    · rcases ih hsuf with ⟨A', hA', ht⟩ | hB
      · left
        exact ⟨A', hA'.trans (List.suffix_cons c cs), ht⟩
      · right
        exact hB

theorem matchAt_canonName_none (f1 f2 f3 f5 f6 f7 : Str)
    (hf1 : fieldOk f1) (hf2 : fieldOk f2) (hf3 : fieldOk f3)
    (hf5 : fieldOk f5) (hf6 : fieldOk f6) (hf7 : fieldOk f7)
    (hbad : LevelFromString f5 = none ∨ f7.takeWhile Char.isDigit = [])
    (t : Str) (hsuf : List.IsSuffix t (canonName f1 f2 f3 f5 f6 f7)) :
    matchAt t = none := by
  obtain ⟨hne1, hdot1⟩ := hf1
  obtain ⟨hne2, hdot2⟩ := hf2
  obtain ⟨hne3, hdot3⟩ := hf3
  obtain ⟨hne5, hdot5⟩ := hf5
  obtain ⟨hne6, hdot6⟩ := hf6
  obtain ⟨hne7, hdot7⟩ := hf7
  unfold canonName at hsuf
  have hR1dots : dotCount (f2 ++ '.' :: (f3 ++ '.' :: ('l' :: 'o' :: 'g' :: '.' ::
      (f5 ++ '.' :: (f6 ++ '.' :: f7))))) = 5 := by
    rw [dotCount_append_dot _ hdot2, dotCount_append_dot _ hdot3,
      dotCount_cons_ne (by decide), dotCount_cons_ne (by decide),
      dotCount_cons_ne (by decide), dotCount_dot_cons,
      dotCount_append_dot _ hdot5, dotCount_append_dot _ hdot6,
      show dotCount f7 = 0 from List.count_eq_zero.mpr hdot7]
  have hmain : ∀ A' : Str, '.' ∉ A' →
      matchAt (A' ++ '.' :: (f2 ++ '.' :: (f3 ++ '.' :: ('l' :: 'o' :: 'g' :: '.' ::
        (f5 ++ '.' :: (f6 ++ '.' :: f7)))))) = none := by
    intro A' hA'
    cases A' with
    | nil =>
      unfold matchAt
      rw [show fieldThenDot ([] ++ '.' :: (f2 ++ '.' :: (f3 ++ '.' ::
        ('l' :: 'o' :: 'g' :: '.' :: (f5 ++ '.' :: (f6 ++ '.' :: f7)))))) = none
        from rfl]
    | cons a as =>
      unfold matchAt
      rw [fieldThenDot_append _ (by simp) hA']
      dsimp only
      rw [fieldThenDot_append _ hne2 hdot2]
      dsimp only
      rw [fieldThenDot_append _ hne3 hdot3]
      dsimp only
      rw [if_pos ⟨rfl, rfl, rfl, rfl⟩]
      rcases hbad with hsev | hdig
      · have hnone : sevThenDot (f5 ++ '.' :: (f6 ++ '.' :: f7)) = none := by
          cases hs : sevThenDot (f5 ++ '.' :: (f6 ++ '.' :: f7)) with
          | none => rfl
          | some pr =>
            obtain ⟨sv, r⟩ := pr
            obtain ⟨heq, hsv3⟩ := sevThenDot_some hs
            have hsvdot : '.' ∉ sv := by
              rcases hsv3 with rfl | rfl | rfl <;> decide
            obtain ⟨hf5sv, _⟩ := append_dot_inj hdot5 hsvdot heq
            rw [hf5sv] at hsev
            rcases hsv3 with rfl | rfl | rfl <;> exact absurd hsev (by decide)
        rw [hnone]
      · cases hs : sevThenDot (f5 ++ '.' :: (f6 ++ '.' :: f7)) with
        | none => rfl
        | some pr =>
          obtain ⟨sv, r⟩ := pr
          dsimp only
          obtain ⟨heq, hsv3⟩ := sevThenDot_some hs
          have hsvdot : '.' ∉ sv := by
            rcases hsv3 with rfl | rfl | rfl <;> decide
          obtain ⟨hf5sv, hrEq⟩ := append_dot_inj hdot5 hsvdot heq
          rw [← hrEq]
          rw [fieldThenDot_append _ hne6 hdot6]
          dsimp only
          rw [hdig]
          simp
  rcases suffix_append_cases hsuf with ⟨A', hA'f1, rfl⟩ | hsufR
  · exact hmain A' (fun hm => hdot1 (hA'f1.sublist.subset hm))
  · rcases List.suffix_cons_iff.mp hsufR with rfl | hsufR1
    · exact hmain [] (by simp)
    · cases hmt : matchAt t with
      | none => rfl
      | some g =>
        have h6 := matchAt_dots hmt
        have hle : dotCount t ≤ dotCount _ := hsufR1.sublist.count_le '.'
        omega

/-- C6 amended: `parseLogFilename` fails, without raising, on every string
with fewer than six periods (fewer dot-separated fields than the canonical
grammar `program.host.user.log.SEVERITY.timestamp.pid`), on every
canonical-shape string whose severity token is unknown, and on every
canonical-shape string whose pid field does not begin with a digit.
(Because `logFileRE` is unanchored, a string with MORE fields than the
canonical shape, or a pid field that merely begins with digits, can still
decode — see the counterexample.) -/
theorem C6_parse_rejects_malformed :
    (∀ s : Str, dotCount s < 6 → parseLogFilename s = none) ∧
    (∀ f1 f2 f3 f5 f6 f7 : Str, fieldOk f1 → fieldOk f2 → fieldOk f3 →
      fieldOk f5 → fieldOk f6 → fieldOk f7 → LevelFromString f5 = none →
      parseLogFilename (canonName f1 f2 f3 f5 f6 f7) = none) ∧
    (∀ f1 f2 f3 f5 f6 f7 : Str, fieldOk f1 → fieldOk f2 → fieldOk f3 →
      fieldOk f5 → fieldOk f6 → fieldOk f7 →
      f7.takeWhile Char.isDigit = [] →
      parseLogFilename (canonName f1 f2 f3 f5 f6 f7) = none) := by
  have hparse_none : ∀ s : Str, findMatch s = none → parseLogFilename s = none := by
    intro s h
    unfold parseLogFilename
    rw [h]
  refine ⟨?_, ?_, ?_⟩
  · intro s hlt
    cases hp : parseLogFilename s with
    | none => rfl
    | some d => exact absurd (parseLogFilename_dots hp) (by omega)
  · intro f1 f2 f3 f5 f6 f7 h1 h2 h3 h5 h6 h7 hsev
    exact hparse_none _ (findMatch_none (fun t ht =>
      matchAt_canonName_none f1 f2 f3 f5 f6 f7 h1 h2 h3 h5 h6 h7 (Or.inl hsev) t ht))
  · intro f1 f2 f3 f5 f6 f7 h1 h2 h3 h5 h6 h7 hdig
    exact hparse_none _ (findMatch_none (fun t ht =>
      matchAt_canonName_none f1 f2 f3 f5 f6 f7 h1 h2 h3 h5 h6 h7 (Or.inr hdig) t ht))

/-- C6 counterexample: the input
`a.prog.host.user.log.INFO.2015-06-01T12_00_00Z.12ab` has eight
dot-separated fields (seven periods, more than the canonical grammar's
shape) and its pid field `12ab` is not numeric, yet `parseLogFilename`
decodes it successfully (the unanchored regex matches the embedded
canonical core and `(\d+)` grabs the digit prefix `12`). -/
theorem C6_counterexample :
    parseLogFilename "a.prog.host.user.log.INFO.2015-06-01T12_00_00Z.12ab".data =
      some ⟨"prog".data, "host".data, "user".data, Level.INFO,
            ⟨2015, 6, 1, 12, 0, 0⟩, 12⟩ ∧
    dotCount "a.prog.host.user.log.INFO.2015-06-01T12_00_00Z.12ab".data = 7 := by
  constructor
  · rfl
  · rfl

/-- Witness for the amended C6 theorem at concrete malformed inputs. -/
theorem C6_rejects_witness :
    parseLogFilename "prog.host".data = none ∧
    parseLogFilename (canonName "prog".data "host".data "user".data
      "FATAL".data "ts".data "5".data) = none ∧
    parseLogFilename (canonName "prog".data "host".data "user".data
      "INFO".data "ts".data "x5".data) = none :=
  ⟨C6_parse_rejects_malformed.1 "prog.host".data (by decide),
   C6_parse_rejects_malformed.2.1 "prog".data "host".data "user".data
     "FATAL".data "ts".data "5".data (by decide) (by decide) (by decide)
     (by decide) (by decide) (by decide) (by decide),
   C6_parse_rejects_malformed.2.2 "prog".data "host".data "user".data
     "INFO".data "ts".data "x5".data (by decide) (by decide) (by decide)
     (by decide) (by decide) (by decide) (by decide)⟩

/-- The outcome of a Go call that can return a value, return an error, or
crash the process with a runtime panic. -/
inductive Outcome (α : Type) where
  | ok (a : α)
  | err (e : String)
  | panic
deriving DecidableEq

/-- Go `create`'s per-directory loop body. The filesystem is the
collaborator `openFile` (Go `os.OpenFile` with `O_APPEND|O_CREATE|O_WRONLY`,
keyed by the joined path); the returned handle is opaque, so success
carries the path. The source returns an error to its caller as soon as the
FIRST directory's OpenFile fails (the `lastErr = err` line after the two
returns is unreachable); on success it updates the severity symlink
best-effort, discarding both `os.Remove` and `os.Symlink` errors (a no-op
here), and returns without trying further directories. The `[]` case is
the source's final `return` with the accumulated `lastErr`. -/
def createLoop (openFile : Str → Except String Unit) (name : Str)
    (lastErr : String) : List Str → Except String Str
  | [] => .error ("log: cannot create log: " ++ lastErr)
  | dir :: _ =>
    match openFile (dir ++ '/' :: name) with
    | .error e => .error ("log: cannot create log: " ++ e)
    | .ok _ => .ok (dir ++ '/' :: name)

/-- Go `create`: fails if no candidate directories are configured,
otherwise runs the directory loop on the name from `logName`. -/
def create (logDirs : List Str) (openFile : Str → Except String Unit)
    (cfg : Config) (level : Level) (t : GoTime) : Except String Str :=
  if logDirs = [] then .error "log: no log dirs"
  else createLoop openFile (logName cfg level t).1 "" logDirs

/-- C8 evidence: with two candidate directories, the first failing to open
and the second perfectly able to succeed, `create` returns the error at
once — the second directory is never attempted even though opening there
would succeed. -/
theorem C8_create_aborts_on_first_failure :
    create ["d1".data, "d2".data]
        (fun p => if startsWith "d1".data p then .error "EACCES" else .ok ())
        ⟨1, "p".data, "h".data, "u".data⟩ Level.INFO ⟨2015, 6, 1, 0, 0, 0⟩ =
      .error "log: cannot create log: EACCES" ∧
    (fun p => if startsWith "d1".data p then (.error "EACCES" : Except String Unit)
        else .ok ())
      ("d2".data ++ '/' ::
        (logName ⟨1, "p".data, "h".data, "u".data⟩ Level.INFO
          ⟨2015, 6, 1, 0, 0, 0⟩).1) = .ok () := by
  constructor
  · rfl
  · rfl

/-- One log entry as the fetcher sees it (`proto.LogEntry`): only the
nanosecond timestamp is read by this core; `payload` stands in for the
remaining fields. -/
structure LogEntry where
  time : Int
  payload : Nat
deriving DecidableEq, Inhabited

/-- A directory entry with decoded details (Go `FileInfo`). -/
structure FileInfo where
  name : Str
  sizeBytes : Int
  modTimeNanos : Int
  details : FileDetails
deriving DecidableEq, Inhabited

/-- Modelled from the spec: Go `time.Time.UnixNano()` on a decoded UTC
segment creation time — days from the civil date (proleptic Gregorian,
standard shifted-year formula), to seconds since the Unix epoch, times
1e9. -/
def unixNano (t : GoTime) : Int :=
  (((365 * (if t.month ≤ 2 then t.year - 1 else t.year) +
      (if t.month ≤ 2 then t.year - 1 else t.year) / 4 -
      (if t.month ≤ 2 then t.year - 1 else t.year) / 100 +
      (if t.month ≤ 2 then t.year - 1 else t.year) / 400 +
      (153 * ((t.month + 9) % 12) + 2) / 5 + (t.day - 1) : Nat) : Int) - 719468) *
      86400000000000 +
    ((t.hour : Int) * 3600 + (t.minute : Int) * 60 + (t.second : Int)) * 1000000000

/-- What the `GetLogReader`/`NewEntryDecoder` collaborators yield for a
file name: `none` models `GetLogReader` returning a nil reader (with or
without an error); `some (es, none)` a reader whose decoder yields the
entries `es` and then `io.EOF`; `some (es, some e)` a reader whose decoder
yields `es` and then fails with the non-EOF decode error `e`. -/
abbrev ReadOracle := Str → Option (List LogEntry × Option String)

/-- The decode loop of `readAllEntriesFromFile`: each decoded entry whose
timestamp lies in `[startTimeNano, endTimeNano]` is prepended to the front
of the accumulated list. -/
def entriesLoop (startTimeNano endTimeNano : Int) :
    List LogEntry → List LogEntry → List LogEntry
  | [], acc => acc
  | e :: es, acc =>
    entriesLoop startTimeNano endTimeNano es
      (if e.time ≥ startTimeNano ∧ e.time ≤ endTimeNano then e :: acc else acc)

/-- Go `readAllEntriesFromFile`. The source defers `reader.Close()` BEFORE
checking `reader == nil`; when `GetLogReader` yields a nil reader the
deferred call dereferences a nil interface at function return — a runtime
panic under Go semantics, modelled as `Outcome.panic`. A decode error
aborts with that error and no entries. -/
def readAllEntriesFromFile (oracle : ReadOracle) (file : FileInfo)
    (startTimeNano endTimeNano : Int) : Outcome (List LogEntry) :=
  match oracle file.name with
  | none => .panic
  | some (es, terr) =>
    match terr with
    | some e => .err e
    | none => .ok (entriesLoop startTimeNano endTimeNano es [])

/-- The per-file selection scan of `FetchEntiresFromFiles` (lines building
`logFileMap`, `nanos`, `diffToStart`, `closestToStartNano`). The map is a
Go map keyed by the decoded creation time in unix nanos: a later insert
for the same key overwrites the earlier one. Initial state:
`diffToStart = math.MaxInt64`, `closestToStartNano = 0`. -/
def selectFiles (level : Level) (startTimeNano endTimeNano : Int) :
    List FileInfo → (Int → Option FileInfo) → List Int → Int → Int →
      ((Int → Option FileInfo) × List Int × Int × Int)
  | [], m, nanos, diff, closest => (m, nanos, diff, closest)
  | f :: fs, m, nanos, diff, closest =>
    if f.details.level = level then
      if unixNano f.details.time ≤ endTimeNano then
        if unixNano f.details.time ≤ startTimeNano ∧
            startTimeNano - unixNano f.details.time < diff then
          selectFiles level startTimeNano endTimeNano fs
            (fun k => if k = unixNano f.details.time then some f else m k)
            (nanos ++ [unixNano f.details.time])
            (startTimeNano - unixNano f.details.time) (unixNano f.details.time)
        else
          selectFiles level startTimeNano endTimeNano fs
            (fun k => if k = unixNano f.details.time then some f else m k)
            (nanos ++ [unixNano f.details.time]) diff closest
      else selectFiles level startTimeNano endTimeNano fs m nanos diff closest
    else selectFiles level startTimeNano endTimeNano fs m nanos diff closest

/-- Insertion of a key into a descending-sorted list. -/
def insertDesc (x : Int) : List Int → List Int
  | [] => [x]
  | y :: ys => if y ≤ x then x :: y :: ys else y :: insertDesc x ys

/-- `sort.Sort(sort.Reverse(nanos))`: the keys in descending order. The
source's sort is unstable, but the keys are plain integers, so the
descending-sorted result is unique; an insertion sort is an equivalent
model. -/
def sortDesc : List Int → List Int
  | [] => []
  | x :: xs => insertDesc x (sortDesc xs)

/-- The read loop of `FetchEntiresFromFiles` over the descending-sorted
nano keys. The second component of the result is a ghost trace, not in
the source: the keys of the files actually opened, in order, used to state
which segments a fetch touches. A file's entries are appended, then the
cutoff is tested, then the boundary-segment test `nano ==
closestToStartNano` stops the scan. -/
def fetchLoop (oracle : ReadOracle) (startTimeNano endTimeNano : Int)
    (closestToStartNano : Int) (cutoff : Nat) (m : Int → Option FileInfo) :
    List Int → List LogEntry → Outcome (List LogEntry) × List Int
  | [], entries => (.ok entries, [])
  | nano :: rest, entries =>
    match readAllEntriesFromFile oracle ((m nano).getD default)
        startTimeNano endTimeNano with
    | .panic => (.panic, [nano])
    | .err e => (.err e, [nano])
    | .ok newEntries =>
      if cutoff ≤ (entries ++ newEntries).length then
        (.ok (entries ++ newEntries), [nano])
      else if nano = closestToStartNano then (.ok (entries ++ newEntries), [nano])
      else
        ((fetchLoop oracle startTimeNano endTimeNano closestToStartNano cutoff m
            rest (entries ++ newEntries)).1,
         nano :: (fetchLoop oracle startTimeNano endTimeNano closestToStartNano
            cutoff m rest (entries ++ newEntries)).2)

/-- Go `FetchEntiresFromFiles`. `cutoff` is the package variable
`EntiresCutoff`; `listing` is the result of `ListLogFiles`; `oracle` is
the `GetLogReader`/`NewEntryDecoder` collaborator. Selection keeps files
of exactly the requested level with creation time ≤ `endTimeNano`, the
keys are sorted descending (`sort.Sort(sort.Reverse(...))`), and the read
loop runs on them. The second component is the ghost trace of opened
keys. -/
def FetchEntiresFromFiles (cutoff : Nat) (oracle : ReadOracle)
    (listing : Except String (List FileInfo)) (level : Level)
    (startTimeNano endTimeNano : Int) : Outcome (List LogEntry) × List Int :=
  match listing with
  | .error e => (.err e, [])
  | .ok logFiles =>
    let sel := selectFiles level startTimeNano endTimeNano logFiles
      (fun _ => none) [] maxInt64 0
    if sel.2.1 = [] then (.ok [], [])
    else
      fetchLoop oracle startTimeNano endTimeNano sel.2.2.2 cutoff sel.1
        (sortDesc sel.2.1) []

/-- C9 evidence: when `GetLogReader` returns a nil reader for a selected
segment (for example the file disappeared between listing and opening),
the fetch does not return an error value — it panics, because
`readAllEntriesFromFile` defers `reader.Close()` before its nil check. -/
theorem C9_nil_reader_panics :
    FetchEntiresFromFiles 100000 (fun _ => none)
        (.ok [⟨"f".data, 0, 0,
          ⟨"p".data, "h".data, "u".data, Level.INFO, ⟨2015, 6, 1, 0, 0, 0⟩, 1⟩⟩])
        Level.INFO 0 (unixNano ⟨2015, 6, 1, 0, 0, 0⟩) =
      (.panic, [unixNano ⟨2015, 6, 1, 0, 0, 0⟩]) := by
  rfl

/-- The in-window entries a file name yields through the decoder, in the
order `readAllEntriesFromFile` returns them (newest first). -/
def keptName (oracle : ReadOracle) (startTimeNano endTimeNano : Int) (nm : Str) :
    List LogEntry :=
  match oracle nm with
  | some (es, _) => entriesLoop startTimeNano endTimeNano es []
  | none => []

/-- The in-window entries the loop obtains for a map key. -/
def keptOf (oracle : ReadOracle) (m : Int → Option FileInfo)
    (startTimeNano endTimeNano : Int) (n : Int) : List LogEntry :=
  keptName oracle startTimeNano endTimeNano ((m n).getD default).name

theorem entriesLoop_eq (s e : Int) (es acc : List LogEntry) :
    entriesLoop s e es acc =
      (es.filter (fun x => decide (x.time ≥ s ∧ x.time ≤ e))).reverse ++ acc := by
  induction es generalizing acc with
  | nil => simp [entriesLoop]
  | cons x es ih =>
    by_cases hx : x.time ≥ s ∧ x.time ≤ e
    · simp [entriesLoop, hx, ih, List.filter_cons]
    · simp [entriesLoop, hx, ih, List.filter_cons]

theorem readAll_ok {oracle : ReadOracle} {file : FileInfo} {s e : Int}
    {new : List LogEntry}
    (h : readAllEntriesFromFile oracle file s e = .ok new) :
    ∃ es, oracle file.name = some (es, none) ∧ new = entriesLoop s e es [] := by
  unfold readAllEntriesFromFile at h
  cases ho : oracle file.name with
  | none => rw [ho] at h; exact absurd h (by simp)
  | some pr =>
    obtain ⟨es, terr⟩ := pr
    rw [ho] at h
    dsimp only at h
    cases terr with
    | some er => exact absurd h (by simp)
    | none =>
      injection h with h'
      exact ⟨es, rfl, h'.symm⟩

theorem readAll_of_oracle {oracle : ReadOracle} {file : FileInfo} {s e : Int}
    {es : List LogEntry} (h : oracle file.name = some (es, none)) :
    readAllEntriesFromFile oracle file s e = .ok (entriesLoop s e es []) := by
  unfold readAllEntriesFromFile
  rw [h]

theorem keptName_of_oracle {oracle : ReadOracle} {nm : Str} {s e : Int}
    {es : List LogEntry} {terr : Option String} (h : oracle nm = some (es, terr)) :
    keptName oracle s e nm = entriesLoop s e es [] := by
  unfold keptName
  rw [h]

theorem selectFiles_nil (level : Level) (s e : Int) (m : Int → Option FileInfo)
    (nanos : List Int) (diff closest : Int) :
    selectFiles level s e [] m nanos diff closest = (m, nanos, diff, closest) := rfl

theorem selectFiles_cons_keep (level : Level) (s e : Int) (f : FileInfo)
    (fs : List FileInfo) (m : Int → Option FileInfo) (nanos : List Int)
    (diff closest : Int)
    (h1 : f.details.level = level) (h2 : unixNano f.details.time ≤ e)
    (h3 : ¬ (unixNano f.details.time ≤ s ∧ s - unixNano f.details.time < diff)) :
    selectFiles level s e (f :: fs) m nanos diff closest =
      selectFiles level s e fs
        (fun k => if k = unixNano f.details.time then some f else m k)
        (nanos ++ [unixNano f.details.time]) diff closest := by
  simp only [selectFiles, if_pos h1, if_pos h2, if_neg h3]

theorem selectFiles_cons_keepBoundary (level : Level) (s e : Int) (f : FileInfo)
    (fs : List FileInfo) (m : Int → Option FileInfo) (nanos : List Int)
    (diff closest : Int)
    (h1 : f.details.level = level) (h2 : unixNano f.details.time ≤ e)
    (h3 : unixNano f.details.time ≤ s ∧ s - unixNano f.details.time < diff) :
    selectFiles level s e (f :: fs) m nanos diff closest =
      selectFiles level s e fs
        (fun k => if k = unixNano f.details.time then some f else m k)
        (nanos ++ [unixNano f.details.time])
        (s - unixNano f.details.time) (unixNano f.details.time) := by
  simp only [selectFiles, if_pos h1, if_pos h2, if_pos h3]

theorem selectFiles_cons_skipLevel (level : Level) (s e : Int) (f : FileInfo)
    (fs : List FileInfo) (m : Int → Option FileInfo) (nanos : List Int)
    (diff closest : Int) (h1 : ¬ f.details.level = level) :
    selectFiles level s e (f :: fs) m nanos diff closest =
      selectFiles level s e fs m nanos diff closest := by
  simp only [selectFiles, if_neg h1]

theorem selectFiles_cons_skipEnd (level : Level) (s e : Int) (f : FileInfo)
    (fs : List FileInfo) (m : Int → Option FileInfo) (nanos : List Int)
    (diff closest : Int) (h1 : f.details.level = level)
    (h2 : ¬ unixNano f.details.time ≤ e) :
    selectFiles level s e (f :: fs) m nanos diff closest =
      selectFiles level s e fs m nanos diff closest := by
  simp only [selectFiles, if_pos h1, if_neg h2]

theorem fetchLoop_nil (oracle : ReadOracle) (s e closest : Int) (cutoff : Nat)
    (m : Int → Option FileInfo) (entries : List LogEntry) :
    fetchLoop oracle s e closest cutoff m [] entries = (.ok entries, []) := rfl


theorem fetchLoop_cons_continue (oracle : ReadOracle) (s e closest : Int)
    (cutoff : Nat) (m : Int → Option FileInfo) (nano : Int) (rest : List Int)
    (entries new : List LogEntry)
    (hread : readAllEntriesFromFile oracle ((m nano).getD default) s e = .ok new)
    (hcut : ¬ cutoff ≤ (entries ++ new).length)
    (hnb : ¬ nano = closest) :
    fetchLoop oracle s e closest cutoff m (nano :: rest) entries =
      ((fetchLoop oracle s e closest cutoff m rest (entries ++ new)).1,
       nano :: (fetchLoop oracle s e closest cutoff m rest (entries ++ new)).2) := by
  conv_lhs => rw [fetchLoop]
  rw [hread]
  dsimp only
  rw [if_neg hcut, if_neg hnb]

theorem fetchLoop_cons_boundary (oracle : ReadOracle) (s e closest : Int)
    (cutoff : Nat) (m : Int → Option FileInfo) (nano : Int) (rest : List Int)
    (entries new : List LogEntry)
    (hread : readAllEntriesFromFile oracle ((m nano).getD default) s e = .ok new)
    (hcut : ¬ cutoff ≤ (entries ++ new).length)
    (hnb : nano = closest) :
    fetchLoop oracle s e closest cutoff m (nano :: rest) entries =
      (.ok (entries ++ new), [nano]) := by
  conv_lhs => rw [fetchLoop]
  rw [hread]
  dsimp only
  rw [if_neg hcut, if_pos hnb]

theorem fetchLoop_cons_cutoff (oracle : ReadOracle) (s e closest : Int)
    (cutoff : Nat) (m : Int → Option FileInfo) (nano : Int) (rest : List Int)
    (entries new : List LogEntry)
    (hread : readAllEntriesFromFile oracle ((m nano).getD default) s e = .ok new)
    (hcut : cutoff ≤ (entries ++ new).length) :
    fetchLoop oracle s e closest cutoff m (nano :: rest) entries =
      (.ok (entries ++ new), [nano]) := by
  conv_lhs => rw [fetchLoop]
  rw [hread]
  dsimp only
  rw [if_pos hcut]

/-- C10: when two retained segments decode to the same creation timestamp,
the Go map keyed by that timestamp keeps only the last-listed file; the
timestamp occurs twice in the scan order, so that single file is opened
twice (its in-window entries appearing twice in the result) and the
first-listed duplicate's entries are silently omitted. Stated for a fetch
over exactly the two duplicate segments, both newer than the window start
(so the boundary break does not fire) and with the cutoff unreached. -/
theorem C10_duplicate_timestamps (cutoff : Nat) (oracle : ReadOracle)
    (f1 f2 : FileInfo) (level : Level) (startN endN : Int) (es2 : List LogEntry)
    (hl1 : f1.details.level = level) (hl2 : f2.details.level = level)
    (heq : unixNano f1.details.time = unixNano f2.details.time)
    (hend : unixNano f2.details.time ≤ endN)
    (hstart : startN < unixNano f2.details.time)
    (hnz : ¬ unixNano f2.details.time = 0)
    (hor : oracle f2.name = some (es2, none))
    (hcut : 2 * (entriesLoop startN endN es2 []).length < cutoff) :
    FetchEntiresFromFiles cutoff oracle (.ok [f1, f2]) level startN endN =
      (.ok (entriesLoop startN endN es2 [] ++ entriesLoop startN endN es2 []),
       [unixNano f2.details.time, unixNano f2.details.time]) := by
  have hnle : ¬ (unixNano f1.details.time ≤ startN ∧
      startN - unixNano f1.details.time < maxInt64) := by
    rw [heq]
    intro hq
    omega
  have hnle2 : ¬ (unixNano f2.details.time ≤ startN ∧
      startN - unixNano f2.details.time < maxInt64) := by
    intro hq
    omega
  have hend1 : unixNano f1.details.time ≤ endN := by rw [heq]; exact hend
  have hsel : selectFiles level startN endN [f1, f2] (fun _ => none) [] maxInt64 0 =
      ((fun k => if k = unixNano f2.details.time then some f2 else
          if k = unixNano f1.details.time then some f1 else none),
        [unixNano f1.details.time, unixNano f2.details.time], maxInt64, 0) := by
    rw [selectFiles_cons_keep level startN endN f1 [f2] _ _ _ _ hl1 hend1 hnle,
      selectFiles_cons_keep level startN endN f2 [] _ _ _ _ hl2 hend hnle2,
      selectFiles_nil]
    rfl
  simp only [FetchEntiresFromFiles]
  rw [hsel]
  dsimp only
  rw [if_neg (by simp)]
  have hsort : sortDesc [unixNano f1.details.time, unixNano f2.details.time] =
      [unixNano f2.details.time, unixNano f2.details.time] := by
    rw [heq]
    simp [sortDesc, insertDesc]
  rw [hsort]
  have hread2 : readAllEntriesFromFile oracle
      (((fun k => if k = unixNano f2.details.time then some f2 else
          if k = unixNano f1.details.time then some f1 else none)
        (unixNano f2.details.time)).getD default) startN endN =
      .ok (entriesLoop startN endN es2 []) := by
    have hmap : ((fun k => if k = unixNano f2.details.time then some f2 else
        if k = unixNano f1.details.time then some f1 else none)
          (unixNano f2.details.time)).getD default = f2 := by simp
    rw [hmap]
    exact readAll_of_oracle hor
  have hc1 : ¬ cutoff ≤ (([] : List LogEntry) ++ entriesLoop startN endN es2 []).length := by
    simp only [List.nil_append]
    omega
  have hc2 : ¬ cutoff ≤ (entriesLoop startN endN es2 [] ++
      entriesLoop startN endN es2 []).length := by
    rw [List.length_append]
    omega
  rw [fetchLoop_cons_continue oracle startN endN 0 cutoff
    (fun k => if k = unixNano f2.details.time then some f2 else
      if k = unixNano f1.details.time then some f1 else none)
    (unixNano f2.details.time) [unixNano f2.details.time] []
    (entriesLoop startN endN es2 []) hread2 hc1 hnz]
  rw [List.nil_append]
  rw [fetchLoop_cons_continue oracle startN endN 0 cutoff
    (fun k => if k = unixNano f2.details.time then some f2 else
      if k = unixNano f1.details.time then some f1 else none)
    (unixNano f2.details.time) [] (entriesLoop startN endN es2 [])
    (entriesLoop startN endN es2 []) hread2 hc2 hnz]
  rw [fetchLoop_nil]

/-- Concrete scenario: an INFO segment created at 10:00:00 and another at
10:00:20, each containing one entry stamped at its creation time. -/
def tEarly : GoTime := ⟨2015, 6, 1, 10, 0, 0⟩

def tLate : GoTime := ⟨2015, 6, 1, 10, 0, 20⟩

def nEarly : Int := unixNano tEarly

def nLate : Int := unixNano tLate

def entryEarly : LogEntry := ⟨nEarly, 0⟩

def entryLate : LogEntry := ⟨nLate, 1⟩

def fileEarly : FileInfo :=
  ⟨"A".data, 0, 0, ⟨"p".data, "h".data, "u".data, Level.INFO, tEarly, 1⟩⟩

def fileLate : FileInfo :=
  ⟨"B".data, 0, 0, ⟨"p".data, "h".data, "u".data, Level.INFO, tLate, 1⟩⟩

def twoFileOracle : ReadOracle := fun nm =>
  if nm = "A".data then some ([entryEarly], none)
  else if nm = "B".data then some ([entryLate], none)
  else none

/-- Witness for C10: a duplicate-timestamp pair where only the last-listed
file `B` is ever read — twice — and the entries of `A` are dropped. -/
theorem C10_duplicate_witness :
    FetchEntiresFromFiles 100000
        (fun nm => if nm = "B".data then some ([entryEarly], none) else none)
        (.ok [fileEarly,
          ⟨"B".data, 0, 0, ⟨"p".data, "h".data, "u".data, Level.INFO, tEarly, 2⟩⟩])
        Level.INFO (nEarly - 10) (nEarly + 10) =
      (.ok (entriesLoop (nEarly - 10) (nEarly + 10) [entryEarly] [] ++
            entriesLoop (nEarly - 10) (nEarly + 10) [entryEarly] []),
       [unixNano tEarly, unixNano tEarly]) :=
  C10_duplicate_timestamps 100000 _ fileEarly
    ⟨"B".data, 0, 0, ⟨"p".data, "h".data, "u".data, Level.INFO, tEarly, 2⟩⟩
    Level.INFO (nEarly - 10) (nEarly + 10) [entryEarly]
    rfl rfl rfl (by decide) (by decide) (by decide) rfl (by decide)

/-- C1 counterexample: in the two-segment scenario the fetch returns the
entry of the NEWER segment first — the result is in decreasing timestamp
order, not the claimed non-decreasing (oldest-first) order, and the entry
at the later creation time precedes the entry at the earlier one. -/
theorem C1_counterexample :
    (FetchEntiresFromFiles 100000 twoFileOracle (.ok [fileEarly, fileLate])
        Level.INFO (nEarly - 10) (nLate + 10)).1 = .ok [entryLate, entryEarly] ∧
      entryEarly.time < entryLate.time := by
  constructor
  · rfl
  · decide

theorem insertDesc_perm (x : Int) (l : List Int) :
    (insertDesc x l).Perm (x :: l) := by
  induction l with
  | nil => exact List.Perm.refl _
  | cons y ys ih =>
    unfold insertDesc
    by_cases h : y ≤ x
    · rw [if_pos h]
    · rw [if_neg h]
      exact (ih.cons y).trans (List.Perm.swap x y ys)

theorem sortDesc_perm (l : List Int) : (sortDesc l).Perm l := by
  induction l with
  | nil => exact List.Perm.refl _
  | cons x xs ih => exact (insertDesc_perm x (sortDesc xs)).trans (ih.cons x)

theorem sortDesc_mem {n : Int} {l : List Int} : n ∈ sortDesc l ↔ n ∈ l :=
  (sortDesc_perm l).mem_iff

theorem selectFiles_nanos_acc (level : Level) (s e : Int) :
    ∀ (fs : List FileInfo) (m : Int → Option FileInfo) (nanos : List Int)
      (diff closest : Int),
    (selectFiles level s e fs m nanos diff closest).2.1 =
      nanos ++ (fs.filter (fun f => decide (f.details.level = level) &&
        decide (unixNano f.details.time ≤ e))).map
          (fun f => unixNano f.details.time) := by
  intro fs
  induction fs with
  | nil =>
    intro m nanos diff closest
    simp [selectFiles]
  | cons f fs ih =>
    intro m nanos diff closest
    by_cases h1 : f.details.level = level
    · by_cases h2 : unixNano f.details.time ≤ e
      · by_cases h3 : unixNano f.details.time ≤ s ∧
            s - unixNano f.details.time < diff
        · rw [selectFiles_cons_keepBoundary _ _ _ _ _ _ _ _ _ h1 h2 h3, ih]
          simp [List.filter_cons, h1, h2]
        · rw [selectFiles_cons_keep _ _ _ _ _ _ _ _ _ h1 h2 h3, ih]
          simp [List.filter_cons, h1, h2]
      · rw [selectFiles_cons_skipEnd _ _ _ _ _ _ _ _ _ h1 h2, ih]
        simp [List.filter_cons, h1, h2]
    · rw [selectFiles_cons_skipLevel _ _ _ _ _ _ _ _ _ h1, ih]
      simp [List.filter_cons, h1]

theorem selectFiles_lookup (level : Level) (s e : Int) (F : List FileInfo) :
    ∀ (fs : List FileInfo) (m : Int → Option FileInfo) (nanos : List Int)
      (diff closest : Int),
    (∀ f ∈ fs, f ∈ F) →
    (∀ n ∈ nanos, ∃ f, m n = some f ∧ f ∈ F ∧ unixNano f.details.time = n ∧
      f.details.level = level ∧ n ≤ e) →
    ∀ n ∈ (selectFiles level s e fs m nanos diff closest).2.1,
      ∃ f, (selectFiles level s e fs m nanos diff closest).1 n = some f ∧
        f ∈ F ∧ unixNano f.details.time = n ∧ f.details.level = level ∧ n ≤ e := by
  intro fs
  induction fs with
  | nil =>
    intro m nanos diff closest hfs hm n hn
    rw [selectFiles_nil] at hn ⊢
    exact hm n hn
  | cons f fs ih =>
    intro m nanos diff closest hfs hm n hn
    have hfF : f ∈ F := hfs f (List.mem_cons_self f fs)
    have hfs' : ∀ g ∈ fs, g ∈ F := fun g hg => hfs g (List.mem_cons_of_mem f hg)
    by_cases h1 : f.details.level = level
    · by_cases h2 : unixNano f.details.time ≤ e
      · have hm' : ∀ k ∈ nanos ++ [unixNano f.details.time], ∃ g,
            (if k = unixNano f.details.time then some f else m k) = some g ∧
            g ∈ F ∧ unixNano g.details.time = k ∧ g.details.level = level ∧
            k ≤ e := by
          intro k hk
          by_cases hkf : k = unixNano f.details.time
          · exact ⟨f, by rw [if_pos hkf], hfF, hkf.symm, h1, hkf ▸ h2⟩
          · rcases List.mem_append.mp hk with hkn | hkn
            · obtain ⟨g, hg1, hg2, hg3, hg4, hg5⟩ := hm k hkn
              exact ⟨g, by rw [if_neg hkf]; exact hg1, hg2, hg3, hg4, hg5⟩
            · exact absurd (List.mem_singleton.mp hkn) hkf
        by_cases h3 : unixNano f.details.time ≤ s ∧
            s - unixNano f.details.time < diff
        · rw [selectFiles_cons_keepBoundary _ _ _ _ _ _ _ _ _ h1 h2 h3] at hn ⊢
          exact ih _ _ _ _ hfs' hm' n hn
        · rw [selectFiles_cons_keep _ _ _ _ _ _ _ _ _ h1 h2 h3] at hn ⊢
          exact ih _ _ _ _ hfs' hm' n hn
      · rw [selectFiles_cons_skipEnd _ _ _ _ _ _ _ _ _ h1 h2] at hn ⊢
        exact ih _ _ _ _ hfs' hm n hn
    · rw [selectFiles_cons_skipLevel _ _ _ _ _ _ _ _ _ h1] at hn ⊢
      exact ih _ _ _ _ hfs' hm n hn

theorem fetchLoop_opened_mem (oracle : ReadOracle) (s e closest : Int)
    (cutoff : Nat) (m : Int → Option FileInfo) :
    ∀ (nanos : List Int) (entries : List LogEntry) (n : Int),
    n ∈ (fetchLoop oracle s e closest cutoff m nanos entries).2 → n ∈ nanos := by
  intro nanos
  induction nanos with
  | nil =>
    intro entries n hn
    simp [fetchLoop] at hn
  | cons nano rest ih =>
    intro entries n hn
    unfold fetchLoop at hn
    cases hr : readAllEntriesFromFile oracle ((m nano).getD default) s e with
    | panic =>
      rw [hr] at hn
      dsimp only at hn
      rw [List.mem_singleton.mp hn]
      exact List.mem_cons_self _ _
    | err e' =>
      rw [hr] at hn
      dsimp only at hn
      rw [List.mem_singleton.mp hn]
      exact List.mem_cons_self _ _
    | ok new =>
      rw [hr] at hn
      dsimp only at hn
      by_cases hc : cutoff ≤ (entries ++ new).length
      · rw [if_pos hc] at hn
        rw [List.mem_singleton.mp hn]
        exact List.mem_cons_self _ _
      · rw [if_neg hc] at hn
        by_cases hb : nano = closest
        · rw [if_pos hb] at hn
          rw [List.mem_singleton.mp hn]
          exact List.mem_cons_self _ _
        · rw [if_neg hb] at hn
          dsimp only at hn
          rcases List.mem_cons.mp hn with rfl | hmem
          · exact List.mem_cons_self _ _
          · exact List.mem_cons_of_mem _ (ih _ _ hmem)

/-- C7: the fetch retains exactly the listed segments whose decoded
severity equals the requested level — a segment at any other level is
never retained — and whose decoded creation time is ≤ `endTimeNano`; every
segment it subsequently opens is one of these retained segments. -/
theorem C7_exact_level_and_end_filter (cutoff : Nat) (oracle : ReadOracle)
    (files : List FileInfo) (level : Level) (startN endN : Int) :
    (selectFiles level startN endN files (fun _ => none) [] maxInt64 0).2.1 =
      (files.filter (fun f => decide (f.details.level = level) &&
        decide (unixNano f.details.time ≤ endN))).map
          (fun f => unixNano f.details.time) ∧
    ∀ n ∈ (FetchEntiresFromFiles cutoff oracle (.ok files) level startN endN).2,
      ∃ f, f ∈ files ∧ unixNano f.details.time = n ∧ f.details.level = level ∧
        n ≤ endN := by
  constructor
  · simpa using selectFiles_nanos_acc level startN endN files (fun _ => none) []
      maxInt64 0
  · intro n hn
    simp only [FetchEntiresFromFiles] at hn
    by_cases he :
        (selectFiles level startN endN files (fun _ => none) [] maxInt64 0).2.1 = []
    · rw [if_pos he] at hn
      simp at hn
    · rw [if_neg he] at hn
      have hmem : n ∈ sortDesc
          (selectFiles level startN endN files (fun _ => none) [] maxInt64 0).2.1 :=
        fetchLoop_opened_mem _ _ _ _ _ _ _ _ _ hn
      have hmem2 := sortDesc_mem.mp hmem
      obtain ⟨f, _, hf2, hf3, hf4, hf5⟩ :=
        selectFiles_lookup level startN endN files files _ _ _ _
          (fun g hg => hg) (by simp) n hmem2
      exact ⟨f, hf2, hf3, hf4, hf5⟩

/-- Witness for C7 at the concrete two-segment scenario: the opened key of
the newer segment corresponds to a listed INFO file within the window
end. -/
theorem C7_filter_witness :
    ∃ f, f ∈ [fileEarly, fileLate] ∧ unixNano f.details.time = nLate ∧
      f.details.level = Level.INFO ∧ nLate ≤ nLate + 10 :=
  (C7_exact_level_and_end_filter 100000 twoFileOracle [fileEarly, fileLate]
    Level.INFO (nEarly - 10) (nLate + 10)).2 nLate (by decide)

def oneFileTwoEntryOracle : ReadOracle := fun nm =>
  if nm = "B".data then some ([entryEarly, entryLate], none) else none

/-- C2 counterexample: with the global cutoff set to 1 and a single
segment holding two in-window entries, the fetch returns BOTH entries —
more than the cutoff — because the cutoff is only tested after a whole
file's entries have been appended, and the result is never truncated. -/
theorem C2_cutoff_counterexample :
    (FetchEntiresFromFiles 1 oneFileTwoEntryOracle (.ok [fileLate]) Level.INFO
        (nEarly - 10) (nLate + 10)).1 = .ok [entryLate, entryEarly] ∧
      ¬ ([entryLate, entryEarly].length ≤ 1) := by
  constructor
  · rfl
  · decide

theorem fetchLoop_opened_spec (oracle : ReadOracle) (s e closest : Int)
    (cutoff : Nat) (m : Int → Option FileInfo) :
    ∀ (nanos : List Int) (entries l : List LogEntry) (os : List Int),
    fetchLoop oracle s e closest cutoff m nanos entries = (.ok l, os) →
    entries.length < cutoff →
    l = entries ++ (os.map (keptOf oracle m s e)).flatten ∧
    ∀ k, k + 1 < os.length →
      (entries ++ ((os.take (k + 1)).map (keptOf oracle m s e)).flatten).length <
        cutoff := by
  intro nanos
  induction nanos with
  | nil =>
    intro entries l os h hlen
    rw [fetchLoop_nil] at h
    injection h with h1 h2
    injection h1 with h1
    subst h1
    subst h2
    constructor
    · simp
    · intro k hk
      simp at hk
  | cons nano rest ih =>
    intro entries l os h hlen
    unfold fetchLoop at h
    cases hr : readAllEntriesFromFile oracle ((m nano).getD default) s e with
    | panic =>
      rw [hr] at h
      dsimp only at h
      injection h with h1 h2
      exact absurd h1 (by simp)
    | err e' =>
      rw [hr] at h
      dsimp only at h
      injection h with h1 h2
      exact absurd h1 (by simp)
    | ok new =>
      rw [hr] at h
      dsimp only at h
      have hkept : keptOf oracle m s e nano = new := by
        obtain ⟨es, ho, hnew⟩ := readAll_ok hr
        rw [hnew]
        unfold keptOf
        exact keptName_of_oracle ho
      by_cases hc : cutoff ≤ (entries ++ new).length
      · rw [if_pos hc] at h
        injection h with h1 h2
        injection h1 with h1
        subst h1
        subst h2
        constructor
        · simp [hkept]
        · intro k hk
          simp at hk
      · rw [if_neg hc] at h
        by_cases hb : nano = closest
        · rw [if_pos hb] at h
          injection h with h1 h2
          injection h1 with h1
          subst h1
          subst h2
          constructor
          · simp [hkept]
          · intro k hk
            simp at hk
        · rw [if_neg hb] at h
          injection h with h1 h2
          have hrec : fetchLoop oracle s e closest cutoff m rest (entries ++ new) =
              (.ok l,
               (fetchLoop oracle s e closest cutoff m rest (entries ++ new)).2) := by
            rw [← h1]
          obtain ⟨ihl, ihk⟩ := ih (entries ++ new) l _ hrec (by omega)
          subst h2
          constructor
          · rw [ihl]
            simp [hkept, List.append_assoc]
          · intro k hk
            cases k with
            | zero =>
              have hc' : (entries ++ new).length < cutoff := by omega
              simpa [hkept] using hc'
            | succ k' =>
              have hk' : k' + 1 <
                  (fetchLoop oracle s e closest cutoff m rest
                    (entries ++ new)).2.length := by
                simp at hk
                omega
              have hstep := ihk k' hk'
              simp only [List.take_succ_cons, List.map_cons, List.flatten_cons,
                hkept]
              rw [← List.append_assoc]
              exact hstep

/-- C2 amended: a successful fetch returns ALL in-window entries of every
file it opened — when the matching entries exceed the cutoff `C` the
result can therefore exceed `C`, and it is never truncated to the `C` most
recent — and it opens no more files than necessary: every opened file
except the last was opened while the accumulated entry count was still
below `C`. -/
theorem C2_cutoff_behavior (cutoff : Nat) (oracle : ReadOracle)
    (files : List FileInfo) (level : Level) (startN endN : Int)
    (l : List LogEntry) (os : List Int)
    (hpos : 0 < cutoff)
    (h : FetchEntiresFromFiles cutoff oracle (.ok files) level startN endN =
      (.ok l, os)) :
    l = (os.map (keptOf oracle
        (selectFiles level startN endN files (fun _ => none) [] maxInt64 0).1
        startN endN)).flatten ∧
    ∀ k, k + 1 < os.length →
      (((os.take (k + 1)).map (keptOf oracle
        (selectFiles level startN endN files (fun _ => none) [] maxInt64 0).1
        startN endN)).flatten).length < cutoff := by
  simp only [FetchEntiresFromFiles] at h
  by_cases he :
      (selectFiles level startN endN files (fun _ => none) [] maxInt64 0).2.1 = []
  · rw [if_pos he] at h
    injection h with h1 h2
    injection h1 with h1
    subst h1
    subst h2
    constructor
    · simp
    · intro k hk
      simp at hk
  · rw [if_neg he] at h
    obtain ⟨h1, h2⟩ := fetchLoop_opened_spec oracle startN endN _ cutoff _ _ [] l os h
      (by simpa using hpos)
    refine ⟨by simpa using h1, fun k hk => by simpa using h2 k hk⟩

/-- Witness for the amended C2 at the cutoff-1 scenario: the result is the
full kept-entry list of the single opened file (two entries, exceeding the
cutoff). -/
theorem C2_cutoff_witness :
    ([entryLate, entryEarly] : List LogEntry) =
      (([nLate].map (keptOf oneFileTwoEntryOracle
        (selectFiles Level.INFO (nEarly - 10) (nLate + 10) [fileLate]
          (fun _ => none) [] maxInt64 0).1
        (nEarly - 10) (nLate + 10))).flatten) ∧
    ∀ k, k + 1 < ([nLate] : List Int).length →
      ((([nLate].take (k + 1)).map (keptOf oneFileTwoEntryOracle
        (selectFiles Level.INFO (nEarly - 10) (nLate + 10) [fileLate]
          (fun _ => none) [] maxInt64 0).1
        (nEarly - 10) (nLate + 10))).flatten).length < 1 :=
  C2_cutoff_behavior 1 oneFileTwoEntryOracle [fileLate] Level.INFO
    (nEarly - 10) (nLate + 10) [entryLate, entryEarly] [nLate]
    (by decide) rfl

theorem insertDesc_sorted (x : Int) {l : List Int}
    (h : List.Pairwise (fun a b : Int => b ≤ a) l) :
    List.Pairwise (fun a b : Int => b ≤ a) (insertDesc x l) := by
  induction l with
  | nil => simp [insertDesc]
  | cons y ys ih =>
    obtain ⟨hy, hys⟩ := List.pairwise_cons.mp h
    unfold insertDesc
    by_cases hyx : y ≤ x
    · rw [if_pos hyx]
      refine List.pairwise_cons.mpr ⟨?_, h⟩
      intro b hb
      rcases List.mem_cons.mp hb with rfl | hb'
      · exact hyx
      · exact le_trans (hy b hb') hyx
    · rw [if_neg hyx]
      refine List.pairwise_cons.mpr ⟨?_, ih hys⟩
      intro b hb
      rcases List.mem_cons.mp ((insertDesc_perm x ys).mem_iff.mp hb) with rfl | hb'
      · omega
      · exact hy b hb'

theorem sortDesc_sorted (l : List Int) :
    List.Pairwise (fun a b : Int => b ≤ a) (sortDesc l) := by
  induction l with
  | nil => simp [sortDesc]
  | cons x xs ih => exact insertDesc_sorted x ih

theorem fetchLoop_sorted (oracle : ReadOracle) (s e closest : Int) (cutoff : Nat)
    (m : Int → Option FileInfo) (F : List FileInfo)
    (hchrono : ∀ nm es, oracle nm = some (es, none) →
      List.Pairwise (fun a b : LogEntry => a.time ≤ b.time) es)
    (hsep : ∀ f ∈ F, ∀ g ∈ F,
      unixNano f.details.time < unixNano g.details.time →
      ∀ esf esg, oracle f.name = some (esf, none) →
        oracle g.name = some (esg, none) →
        ∀ x ∈ esf, ∀ y ∈ esg, x.time ≤ y.time) :
    ∀ (nanos : List Int) (entries : List LogEntry),
    List.Pairwise (fun a b : Int => b < a) nanos →
    (∀ n ∈ nanos, ∃ f, m n = some f ∧ f ∈ F ∧ unixNano f.details.time = n) →
    List.Pairwise (fun a b : LogEntry => b.time ≤ a.time) entries →
    (∀ a ∈ entries, ∀ n ∈ nanos, ∀ f, m n = some f → ∀ es,
      oracle f.name = some (es, none) → ∀ y ∈ es, y.time ≤ a.time) →
    ∀ l, (fetchLoop oracle s e closest cutoff m nanos entries).1 = .ok l →
    List.Pairwise (fun a b : LogEntry => b.time ≤ a.time) l := by
  intro nanos
  induction nanos with
  | nil =>
    intro entries _ _ hent _ l h
    rw [fetchLoop_nil] at h
    injection h with h1
    rw [← h1]
    exact hent
  | cons nano rest ih =>
    intro entries hdesc hdom hent hbelow l h
    obtain ⟨f, hmf, hfF, hfn⟩ := hdom nano (List.mem_cons_self _ _)
    unfold fetchLoop at h
    cases hr : readAllEntriesFromFile oracle ((m nano).getD default) s e with
    | panic =>
      rw [hr] at h
      dsimp only at h
      exact absurd h (by simp)
    | err e' =>
      rw [hr] at h
      dsimp only at h
      exact absurd h (by simp)
    | ok new =>
      rw [hr] at h
      dsimp only at h
      have hgetd : ((m nano).getD default) = f := by rw [hmf]; rfl
      have hread : readAllEntriesFromFile oracle f s e = .ok new := by
        rw [← hgetd]
        exact hr
      obtain ⟨es, ho, hnew⟩ := readAll_ok hread
      have hnewsorted : List.Pairwise (fun a b : LogEntry => b.time ≤ a.time)
          new := by
        rw [hnew, entriesLoop_eq, List.append_nil, List.pairwise_reverse]
        exact (hchrono f.name es ho).filter _
      have hnewsub : ∀ y ∈ new, y ∈ es := by
        intro y hy
        rw [hnew, entriesLoop_eq, List.append_nil] at hy
        exact List.mem_of_mem_filter (List.mem_reverse.mp hy)
      have hsorted' : List.Pairwise (fun a b : LogEntry => b.time ≤ a.time)
          (entries ++ new) := by
        rw [List.pairwise_append]
        refine ⟨hent, hnewsorted, ?_⟩
        intro a ha b hb
        exact hbelow a ha nano (List.mem_cons_self _ _) f hmf es ho b (hnewsub b hb)
      by_cases hc : cutoff ≤ (entries ++ new).length
      · rw [if_pos hc] at h
        dsimp only at h
        injection h with h1
        rw [← h1]
        exact hsorted'
      · rw [if_neg hc] at h
        by_cases hb : nano = closest
        · rw [if_pos hb] at h
          dsimp only at h
          injection h with h1
          rw [← h1]
          exact hsorted'
        · rw [if_neg hb] at h
          dsimp only at h
          refine ih (entries ++ new) hdesc.of_cons
            (fun n hn => hdom n (List.mem_cons_of_mem _ hn)) hsorted' ?_ l h
          intro a ha n' hn' f' hmf' es' ho' y hy
          rcases List.mem_append.mp ha with ha1 | ha2
          · exact hbelow a ha1 n' (List.mem_cons_of_mem _ hn') f' hmf' es' ho' y hy
          · have hn'lt : n' < nano := (List.pairwise_cons.mp hdesc).1 n' hn'
            obtain ⟨g, hmg, hgF, hgn⟩ := hdom n' (List.mem_cons_of_mem _ hn')
            have hfg : f' = g := by
              rw [hmf'] at hmg
              exact Option.some.inj hmg
            subst hfg
            exact hsep f' hgF f hfF (by rw [hgn, hfn]; exact hn'lt) es' es ho' ho
              y hy a (hnewsub a ha2)

/-- C1 amended: for every successful fetch over segments with pairwise
distinct creation times, chronologically non-decreasing per-file entry
streams, and non-overlapping segments (every entry of an earlier-created
segment is no newer than every entry of a later-created one), the returned
sequence is in non-INCREASING timestamp order — the newest retained entry
comes first, not the oldest. -/
theorem C1_fetch_newest_first (cutoff : Nat) (oracle : ReadOracle)
    (files : List FileInfo) (level : Level) (startN endN : Int)
    (hchrono : ∀ nm es, oracle nm = some (es, none) →
      List.Pairwise (fun a b : LogEntry => a.time ≤ b.time) es)
    (hdistinct : List.Pairwise
      (fun f g => unixNano f.details.time ≠ unixNano g.details.time) files)
    (hsep : ∀ f ∈ files, ∀ g ∈ files,
      unixNano f.details.time < unixNano g.details.time →
      ∀ esf esg, oracle f.name = some (esf, none) →
        oracle g.name = some (esg, none) →
        ∀ x ∈ esf, ∀ y ∈ esg, x.time ≤ y.time)
    (l : List LogEntry)
    (hres : (FetchEntiresFromFiles cutoff oracle (.ok files) level startN
      endN).1 = .ok l) :
    List.Pairwise (fun a b : LogEntry => b.time ≤ a.time) l := by
  simp only [FetchEntiresFromFiles] at hres
  by_cases he :
      (selectFiles level startN endN files (fun _ => none) [] maxInt64 0).2.1 = []
  · rw [if_pos he] at hres
    dsimp only at hres
    injection hres with h1
    rw [← h1]
    exact List.Pairwise.nil
  · rw [if_neg he] at hres
    have hnanos := selectFiles_nanos_acc level startN endN files (fun _ => none)
      [] maxInt64 0
    have hnodup :
        (selectFiles level startN endN files (fun _ => none) [] maxInt64 0).2.1.Nodup := by
      rw [hnanos]
      simp only [List.nil_append]
      unfold List.Nodup
      rw [List.pairwise_map]
      exact hdistinct.filter _
    have hsorted : List.Pairwise (fun a b : Int => b < a)
        (sortDesc (selectFiles level startN endN files (fun _ => none) []
          maxInt64 0).2.1) := by
      have h1 := sortDesc_sorted
        (selectFiles level startN endN files (fun _ => none) [] maxInt64 0).2.1
      have h2 := ((sortDesc_perm _).nodup_iff).mpr hnodup
      exact (h1.and h2).imp (fun hab => lt_of_le_of_ne hab.1 (Ne.symm hab.2))
    have hdom : ∀ n ∈ sortDesc (selectFiles level startN endN files
        (fun _ => none) [] maxInt64 0).2.1,
        ∃ f, (selectFiles level startN endN files (fun _ => none) []
          maxInt64 0).1 n = some f ∧ f ∈ files ∧ unixNano f.details.time = n := by
      intro n hn
      obtain ⟨f, h1, h2, h3, _, _⟩ := selectFiles_lookup level startN endN files
        files _ _ _ _ (fun g hg => hg) (by simp) n (sortDesc_mem.mp hn)
      exact ⟨f, h1, h2, h3⟩
    exact fetchLoop_sorted oracle startN endN _ cutoff _ files hchrono hsep
      (sortDesc _) [] hsorted hdom List.Pairwise.nil
      (fun a ha => absurd ha (List.not_mem_nil a)) l hres

/-- Witness for the amended C1 at the two-segment scenario: the fetch
result `[entryLate, entryEarly]` is in non-increasing timestamp order. -/
theorem C1_order_witness :
    List.Pairwise (fun a b : LogEntry => b.time ≤ a.time)
      [entryLate, entryEarly] :=
  C1_fetch_newest_first 100000 twoFileOracle [fileEarly, fileLate] Level.INFO
    (nEarly - 10) (nLate + 10)
    (by
      intro nm es h
      unfold twoFileOracle at h
      by_cases h1 : nm = "A".data
      · rw [if_pos h1] at h
        injection h with hp
        injection hp with h2 h3
        rw [← h2]
        simp
      · rw [if_neg h1] at h
        by_cases h2 : nm = "B".data
        · rw [if_pos h2] at h
          injection h with hp
          injection hp with h3 h4
          rw [← h3]
          simp
        · rw [if_neg h2] at h
          exact absurd h (by simp))
    (by decide)
    (by
      intro f hf g hg hlt esf esg hof hog x hx y hy
      rcases List.mem_cons.mp hf with rfl | hf'
      · rcases List.mem_cons.mp hg with rfl | hg'
        · exact absurd hlt (by decide)
        · have hge := List.mem_singleton.mp hg'
          subst hge
          rw [show twoFileOracle fileEarly.name = some ([entryEarly], none)
            from rfl] at hof
          rw [show twoFileOracle fileLate.name = some ([entryLate], none)
            from rfl] at hog
          injection hof with hof'
          injection hof' with hof1 hof2
          injection hog with hog'
          injection hog' with hog1 hog2
          rw [← hof1] at hx
          rw [← hog1] at hy
          rw [List.mem_singleton.mp hx, List.mem_singleton.mp hy]
          decide
      · have hfe := List.mem_singleton.mp hf'
        subst hfe
        rcases List.mem_cons.mp hg with rfl | hg'
        · exact absurd hlt (by decide)
        · have hge := List.mem_singleton.mp hg'
          subst hge
          exact absurd hlt (by decide))
    [entryLate, entryEarly] (by rfl)

theorem selectFiles_closest_frozen (level : Level) (s e : Int) :
    ∀ (fs : List FileInfo) (m : Int → Option FileInfo) (nanos : List Int)
      (diff closest : Int),
    (∀ f ∈ fs, ¬ unixNano f.details.time ≤ s) →
    (selectFiles level s e fs m nanos diff closest).2.2.2 = closest := by
  intro fs
  induction fs with
  | nil =>
    intro m nanos diff closest _
    rfl
  | cons f fs ih =>
    intro m nanos diff closest hno
    have hf := hno f (List.mem_cons_self _ _)
    have hno' := fun g hg => hno g (List.mem_cons_of_mem f hg)
    by_cases h1 : f.details.level = level
    · by_cases h2 : unixNano f.details.time ≤ e
      · rw [selectFiles_cons_keep _ _ _ _ _ _ _ _ _ h1 h2 (fun hq => hf hq.1)]
        exact ih _ _ _ _ hno'
      · rw [selectFiles_cons_skipEnd _ _ _ _ _ _ _ _ _ h1 h2]
        exact ih _ _ _ _ hno'
    · rw [selectFiles_cons_skipLevel _ _ _ _ _ _ _ _ _ h1]
      exact ih _ _ _ _ hno'

theorem selectFiles_closest_aux (level : Level) (s e : Int) (fb : FileInfo)
    (hbs : unixNano fb.details.time ≤ s) (hse : s ≤ e) :
    ∀ (fs : List FileInfo) (m : Int → Option FileInfo) (nanos : List Int)
      (diff closest : Int),
    fb ∈ fs →
    (∀ f ∈ fs, f.details.level = level) →
    (∀ f ∈ fs, unixNano f.details.time ≤ s →
      unixNano f.details.time ≤ unixNano fb.details.time) →
    List.Pairwise
      (fun f g => unixNano f.details.time < unixNano g.details.time) fs →
    (∀ f ∈ fs, unixNano f.details.time ≤ s →
      s - unixNano f.details.time < diff) →
    (selectFiles level s e fs m nanos diff closest).2.2.2 =
      unixNano fb.details.time := by
  intro fs
  induction fs with
  | nil =>
    intro m nanos diff closest hmem
    exact absurd hmem (List.not_mem_nil _)
  | cons f fs ih =>
    intro m nanos diff closest hmem hlv hmax hmono hdiff
    have hlf : f.details.level = level := hlv f (List.mem_cons_self _ _)
    by_cases hfs : unixNano f.details.time ≤ s
    · have hfe : unixNano f.details.time ≤ e := le_trans hfs hse
      have hupd : unixNano f.details.time ≤ s ∧
          s - unixNano f.details.time < diff :=
        ⟨hfs, hdiff f (List.mem_cons_self _ _) hfs⟩
      rw [selectFiles_cons_keepBoundary _ _ _ _ _ _ _ _ _ hlf hfe hupd]
      rcases List.mem_cons.mp hmem with hfb | hfb
      · have hnof : ∀ g ∈ fs, ¬ unixNano g.details.time ≤ s := by
          intro g hg hgs
          have h1 := hmax g (List.mem_cons_of_mem f hg) hgs
          have h2 := (List.pairwise_cons.mp hmono).1 g hg
          rw [← hfb] at h2
          omega
        rw [selectFiles_closest_frozen _ _ _ fs _ _ _ _ hnof, hfb]
      · apply ih _ _ _ _ hfb (fun g hg => hlv g (List.mem_cons_of_mem f hg))
          (fun g hg => hmax g (List.mem_cons_of_mem f hg)) hmono.of_cons
        intro g hg hgs
        have h2 := (List.pairwise_cons.mp hmono).1 g hg
        omega
    · have hfb : fb ∈ fs := by
        rcases List.mem_cons.mp hmem with h' | h'
        · exfalso
          rw [h'] at hbs
          exact hfs hbs
        · exact h'
      have hrest : ∀ g ∈ fs, unixNano g.details.time ≤ s →
          s - unixNano g.details.time < diff :=
        fun g hg hgs => hdiff g (List.mem_cons_of_mem f hg) hgs
      by_cases h2 : unixNano f.details.time ≤ e
      · rw [selectFiles_cons_keep _ _ _ _ _ _ _ _ _ hlf h2 (fun hq => hfs hq.1)]
        exact ih _ _ _ _ hfb (fun g hg => hlv g (List.mem_cons_of_mem f hg))
          (fun g hg => hmax g (List.mem_cons_of_mem f hg)) hmono.of_cons hrest
      · rw [selectFiles_cons_skipEnd _ _ _ _ _ _ _ _ _ hlf h2]
        exact ih _ _ _ _ hfb (fun g hg => hlv g (List.mem_cons_of_mem f hg))
          (fun g hg => hmax g (List.mem_cons_of_mem f hg)) hmono.of_cons hrest

theorem fetchLoop_boundary_desc (oracle : ReadOracle) (s e : Int) (cutoff : Nat)
    (m : Int → Option FileInfo) (nb : Int) :
    ∀ (D : List Int) (entries : List LogEntry),
    List.Pairwise (fun a b : Int => b < a) D →
    nb ∈ D →
    (∀ n ∈ D, ∃ f es, m n = some f ∧ oracle f.name = some (es, none)) →
    entries.length +
      ((D.map (keptOf oracle m s e)).map List.length).sum < cutoff →
    (fetchLoop oracle s e nb cutoff m D entries).2 =
      D.filter (fun n => decide (nb ≤ n)) ∧
    ∃ l, (fetchLoop oracle s e nb cutoff m D entries).1 = .ok l := by
  intro D
  induction D with
  | nil =>
    intro entries _ hnb
    exact absurd hnb (List.not_mem_nil nb)
  | cons nano rest ih =>
    intro entries hdesc hnb hreads hcut
    obtain ⟨f, es, hmf, ho⟩ := hreads nano (List.mem_cons_self _ _)
    have hgetd : (m nano).getD default = f := by rw [hmf]; rfl
    have hread : readAllEntriesFromFile oracle ((m nano).getD default) s e =
        .ok (entriesLoop s e es []) := by
      rw [hgetd]
      exact readAll_of_oracle ho
    have hkept : keptOf oracle m s e nano = entriesLoop s e es [] := by
      unfold keptOf
      rw [hgetd]
      exact keptName_of_oracle ho
    simp only [List.map_cons, List.sum_cons, hkept] at hcut
    have hcur : ¬ cutoff ≤ (entries ++ entriesLoop s e es []).length := by
      rw [List.length_append]
      omega
    by_cases hb : nano = nb
    · subst hb
      rw [fetchLoop_cons_boundary oracle s e nano cutoff m nano rest entries _
        hread hcur rfl]
      constructor
      · have hrestnil : rest.filter (fun n => decide (nano ≤ n)) = [] := by
          rw [List.filter_eq_nil_iff]
          intro x hx
          have := (List.pairwise_cons.mp hdesc).1 x hx
          simp
          omega
        simp [List.filter_cons, hrestnil]
      · exact ⟨entries ++ entriesLoop s e es [], rfl⟩
    · have hnb' : nb ∈ rest := by
        rcases List.mem_cons.mp hnb with h' | h'
        · exact absurd h'.symm hb
        · exact h'
      rw [fetchLoop_cons_continue oracle s e nb cutoff m nano rest entries _
        hread hcur hb]
      have hcut' : (entries ++ entriesLoop s e es []).length +
          ((rest.map (keptOf oracle m s e)).map List.length).sum < cutoff := by
        rw [List.length_append]
        omega
      obtain ⟨ih2, l, ihl⟩ := ih (entries ++ entriesLoop s e es [])
        hdesc.of_cons hnb'
        (fun n hn => hreads n (List.mem_cons_of_mem _ hn)) hcut'
      have hnble : nb ≤ nano :=
        le_of_lt ((List.pairwise_cons.mp hdesc).1 nb hnb')
      constructor
      · show nano :: (fetchLoop oracle s e nb cutoff m rest
            (entries ++ entriesLoop s e es [])).2 = _
        rw [ih2]
        simp [List.filter_cons, hnble]
      · exact ⟨l, ihl⟩

theorem pairwise_nano_inj {files : List FileInfo}
    (hmono : List.Pairwise
      (fun f g => unixNano f.details.time < unixNano g.details.time) files) :
    ∀ f ∈ files, ∀ g ∈ files,
      unixNano f.details.time = unixNano g.details.time → f = g := by
  induction files with
  | nil =>
    intro f hf
    exact absurd hf (List.not_mem_nil f)
  | cons a l ih =>
    intro f hf g hg heq
    obtain ⟨ha, hl⟩ := List.pairwise_cons.mp hmono
    rcases List.mem_cons.mp hf with rfl | hf'
    · rcases List.mem_cons.mp hg with rfl | hg'
      · rfl
      · exact absurd heq (by have := ha g hg'; omega)
    · rcases List.mem_cons.mp hg with rfl | hg'
      · exact absurd heq (by have := ha f hf'; omega)
      · exact ih hl f hf' g hg' heq

theorem sublist_sum_le {l1 l2 : List Nat} (h : l1.Sublist l2) : l1.sum ≤ l2.sum := by
  induction h with
  | slnil => exact le_refl _
  | cons a h ih =>
    rw [List.sum_cons]
    omega
  | cons₂ a h ih =>
    rw [List.sum_cons, List.sum_cons]
    omega

theorem filter_map_comm (g : FileInfo → Int) (p : Int → Bool) :
    ∀ (l : List FileInfo),
    (l.map g).filter p = (l.filter (fun f => p (g f))).map g := by
  intro l
  induction l with
  | nil => rfl
  | cons f fs ih =>
    by_cases hp : p (g f)
    · simp [List.filter_cons, hp, ih]
    · simp [List.filter_cons, hp, ih]

theorem sortDesc_eq_reverse {l : List Int}
    (h : List.Pairwise (fun a b : Int => a < b) l) :
    sortDesc l = l.reverse := by
  haveI : IsAntisymm Int (fun a b : Int => b ≤ a) :=
    ⟨fun a b h1 h2 => le_antisymm h2 h1⟩
  exact List.eq_of_perm_of_sorted
    ((sortDesc_perm l).trans (List.reverse_perm l).symm) (sortDesc_sorted l)
    (by
      show List.Pairwise (fun a b : Int => b ≤ a) l.reverse
      rw [List.pairwise_reverse]
      exact h.imp le_of_lt)

theorem map_congr_mem {A B : Type} (f g : A → B) :
    ∀ (l : List A), (∀ a ∈ l, f a = g a) → l.map f = l.map g := by
  intro l
  induction l with
  | nil =>
    intro _
    rfl
  | cons a l ih =>
    intro h
    simp only [List.map_cons]
    rw [h a (List.mem_cons_self a l),
      ih (fun b hb => h b (List.mem_cons_of_mem a hb))]

theorem filter_reverse_comm (p : Int → Bool) :
    ∀ (l : List Int), (l.reverse).filter p = (l.filter p).reverse := by
  intro l
  induction l with
  | nil => rfl
  | cons a l ih =>
    by_cases hp : p a
    · simp [List.reverse_cons, List.filter_append, List.filter_cons, hp, ih]
    · simp [List.reverse_cons, List.filter_append, List.filter_cons, hp, ih]

theorem FetchEntires_ok_eq (cutoff : Nat) (oracle : ReadOracle)
    (files : List FileInfo) (level : Level) (s e : Int)
    (hne : (selectFiles level s e files (fun _ => none) [] maxInt64 0).2.1 ≠ []) :
    FetchEntiresFromFiles cutoff oracle (.ok files) level s e =
      fetchLoop oracle s e
        (selectFiles level s e files (fun _ => none) [] maxInt64 0).2.2.2 cutoff
        (selectFiles level s e files (fun _ => none) [] maxInt64 0).1
        (sortDesc (selectFiles level s e files (fun _ => none) [] maxInt64 0).2.1)
        [] := by
  simp only [FetchEntiresFromFiles]
  rw [if_neg hne]

/-- C3: over same-severity segments listed in strictly increasing
creation-time order, with a boundary segment `fb` (the newest whose
creation time is ≤ the window start) and the cutoff unreached, a
successful fetch opens exactly the segments with creation time in
`[fb's time, endTimeNano]`, newest first, and stops right after draining
`fb` — no older segment is opened. -/
theorem C3_boundary_scan (cutoff : Nat) (oracle : ReadOracle)
    (files : List FileInfo) (level : Level) (startN endN : Int) (fb : FileInfo)
    (hmem : fb ∈ files)
    (hlv : ∀ f ∈ files, f.details.level = level)
    (hmono : List.Pairwise
      (fun f g => unixNano f.details.time < unixNano g.details.time) files)
    (hb1 : unixNano fb.details.time ≤ startN)
    (hmax : ∀ f ∈ files, unixNano f.details.time ≤ startN →
      unixNano f.details.time ≤ unixNano fb.details.time)
    (hse : startN ≤ endN)
    (hnov : ∀ f ∈ files, unixNano f.details.time ≤ startN →
      startN - unixNano f.details.time < maxInt64)
    (hok : ∀ f ∈ files, ∃ es, oracle f.name = some (es, none))
    (hcut : (files.map
      (fun f => (keptName oracle startN endN f.name).length)).sum < cutoff) :
    (FetchEntiresFromFiles cutoff oracle (.ok files) level startN endN).2 =
      (((files.filter (fun f => decide (unixNano f.details.time ≤ endN))).filter
        (fun f => decide (unixNano fb.details.time ≤ unixNano f.details.time))).map
        (fun f => unixNano f.details.time)).reverse ∧
    ∃ l, (FetchEntiresFromFiles cutoff oracle (.ok files) level startN
      endN).1 = .ok l := by
  have hAeq :
      (selectFiles level startN endN files (fun _ => none) [] maxInt64 0).2.1 =
      (files.filter (fun f => decide (unixNano f.details.time ≤ endN))).map
        (fun f => unixNano f.details.time) := by
    rw [selectFiles_nanos_acc]
    simp only [List.nil_append]
    congr 1
    apply List.filter_congr
    intro f hf
    simp [hlv f hf]
  have hasc : List.Pairwise (fun a b : Int => a < b)
      ((files.filter (fun f => decide (unixNano f.details.time ≤ endN))).map
        (fun f => unixNano f.details.time)) := by
    rw [List.pairwise_map]
    exact hmono.filter _
  have hfbF : fb ∈ files.filter
      (fun f => decide (unixNano f.details.time ≤ endN)) := by
    rw [List.mem_filter]
    refine ⟨hmem, ?_⟩
    simp only [decide_eq_true_eq]
    omega
  have hnbA : unixNano fb.details.time ∈
      (selectFiles level startN endN files (fun _ => none) [] maxInt64 0).2.1 := by
    rw [hAeq]
    exact List.mem_map.mpr ⟨fb, hfbF, rfl⟩
  have hAne :
      (selectFiles level startN endN files (fun _ => none) [] maxInt64 0).2.1 ≠
        [] :=
    List.ne_nil_of_mem hnbA
  have hclosest :
      (selectFiles level startN endN files (fun _ => none) [] maxInt64 0).2.2.2 =
        unixNano fb.details.time :=
    selectFiles_closest_aux level startN endN fb hb1 hse files _ _ _ _ hmem hlv
      hmax hmono hnov
  have hDrev : sortDesc
      (selectFiles level startN endN files (fun _ => none) [] maxInt64 0).2.1 =
      ((files.filter (fun f => decide (unixNano f.details.time ≤ endN))).map
        (fun f => unixNano f.details.time)).reverse := by
    rw [hAeq]
    exact sortDesc_eq_reverse hasc
  have hdesc : List.Pairwise (fun a b : Int => b < a)
      (((files.filter (fun f => decide (unixNano f.details.time ≤ endN))).map
        (fun f => unixNano f.details.time)).reverse) := by
    rw [List.pairwise_reverse]
    exact hasc
  have hreads : ∀ n ∈ ((files.filter
        (fun f => decide (unixNano f.details.time ≤ endN))).map
        (fun f => unixNano f.details.time)).reverse,
      ∃ f es,
        (selectFiles level startN endN files (fun _ => none) [] maxInt64 0).1 n =
          some f ∧ oracle f.name = some (es, none) := by
    intro n hn
    have hn' : n ∈
        (selectFiles level startN endN files (fun _ => none) [] maxInt64 0).2.1 := by
      rw [hAeq]
      exact List.mem_reverse.mp hn
    obtain ⟨f, h1, h2, _, _, _⟩ := selectFiles_lookup level startN endN files
      files _ _ _ _ (fun g hg => hg) (by simp) n hn'
    obtain ⟨es, hes⟩ := hok f h2
    exact ⟨f, es, h1, hes⟩
  have hkeptagree : ∀ f ∈ files.filter
      (fun f => decide (unixNano f.details.time ≤ endN)),
      keptOf oracle
        (selectFiles level startN endN files (fun _ => none) [] maxInt64 0).1
        startN endN (unixNano f.details.time) =
      keptName oracle startN endN f.name := by
    intro f hf
    have hfF : f ∈ files := (List.mem_filter.mp hf).1
    have hnA : unixNano f.details.time ∈
        (selectFiles level startN endN files (fun _ => none) [] maxInt64 0).2.1 := by
      rw [hAeq]
      exact List.mem_map.mpr ⟨f, hf, rfl⟩
    obtain ⟨g, h1, h2, h3, _, _⟩ := selectFiles_lookup level startN endN files
      files _ _ _ _ (fun x hx => hx) (by simp) _ hnA
    have hgf : g = f := pairwise_nano_inj hmono g h2 f hfF h3
    unfold keptOf
    rw [h1, hgf]
    rfl
  have hcutD : ([] : List LogEntry).length +
      (((((files.filter (fun f => decide (unixNano f.details.time ≤ endN))).map
        (fun f => unixNano f.details.time)).reverse).map
          (keptOf oracle
            (selectFiles level startN endN files (fun _ => none) [] maxInt64 0).1
            startN endN)).map List.length).sum < cutoff := by
    rw [List.length_nil, List.map_reverse, List.map_reverse, List.sum_reverse,
      List.map_map, List.map_map, Nat.zero_add]
    have e3 : ((files.filter
        (fun f => decide (unixNano f.details.time ≤ endN))).map
        (fun f => (keptName oracle startN endN f.name).length)).Sublist
        (files.map (fun f => (keptName oracle startN endN f.name).length)) :=
      (List.filter_sublist files).map _
    refine lt_of_le_of_lt (le_trans (le_of_eq ?_) (sublist_sum_le e3)) hcut
    apply congrArg List.sum
    apply map_congr_mem
    intro f hf
    show (keptOf oracle
      (selectFiles level startN endN files (fun _ => none) [] maxInt64 0).1
      startN endN (unixNano f.details.time)).length = _
    rw [hkeptagree f hf]
  have hnbrev : unixNano fb.details.time ∈
      ((files.filter (fun f => decide (unixNano f.details.time ≤ endN))).map
        (fun f => unixNano f.details.time)).reverse := by
    rw [List.mem_reverse]
    exact List.mem_map.mpr ⟨fb, hfbF, rfl⟩
  have H0 := fetchLoop_boundary_desc oracle startN endN cutoff
    (selectFiles level startN endN files (fun _ => none) [] maxInt64 0).1
    (unixNano fb.details.time)
    (((files.filter (fun f => decide (unixNano f.details.time ≤ endN))).map
      (fun f => unixNano f.details.time)).reverse) []
  have H1 := H0 hdesc
  have H2 := H1 hnbrev
  have H3 := H2 hreads
  have H := H3 hcutD
  have heq := FetchEntires_ok_eq cutoff oracle files level startN endN hAne
  have hfl : fetchLoop oracle startN endN
      (selectFiles level startN endN files (fun _ => none) [] maxInt64 0).2.2.2
      cutoff
      (selectFiles level startN endN files (fun _ => none) [] maxInt64 0).1
      (sortDesc
        (selectFiles level startN endN files (fun _ => none) [] maxInt64 0).2.1)
      [] =
      fetchLoop oracle startN endN (unixNano fb.details.time) cutoff
      (selectFiles level startN endN files (fun _ => none) [] maxInt64 0).1
      (((files.filter (fun f => decide (unixNano f.details.time ≤ endN))).map
        (fun f => unixNano f.details.time)).reverse) [] := by
    rw [hclosest, hDrev]
  have heq2 := heq.trans hfl
  have hfilters : (((files.filter
      (fun f => decide (unixNano f.details.time ≤ endN))).map
      (fun f => unixNano f.details.time)).reverse).filter
      (fun n => decide (unixNano fb.details.time ≤ n)) =
      (((files.filter (fun f => decide (unixNano f.details.time ≤ endN))).filter
        (fun f => decide (unixNano fb.details.time ≤ unixNano f.details.time))).map
        (fun f => unixNano f.details.time)).reverse := by
    rw [filter_reverse_comm, filter_map_comm]
  exact ⟨(congrArg Prod.snd heq2).trans (H.1.trans hfilters),
    H.2.imp (fun l hl => (congrArg Prod.fst heq2).trans hl)⟩

/-- Witness for C3: two INFO segments at 10:00:00 and 10:00:20 and a window
starting just after the first segment's creation; the fetch opens both
segments newest first and stops after draining the boundary segment. -/
theorem C3_boundary_witness :
    (FetchEntiresFromFiles 100000 twoFileOracle (.ok [fileEarly, fileLate])
        Level.INFO (nEarly + 5) (nLate + 10)).2 =
      ((([fileEarly, fileLate].filter
        (fun f => decide (unixNano f.details.time ≤ nLate + 10))).filter
        (fun f => decide (unixNano fileEarly.details.time ≤
          unixNano f.details.time))).map
        (fun f => unixNano f.details.time)).reverse ∧
    ∃ l, (FetchEntiresFromFiles 100000 twoFileOracle
      (.ok [fileEarly, fileLate]) Level.INFO (nEarly + 5)
      (nLate + 10)).1 = .ok l :=
  C3_boundary_scan 100000 twoFileOracle [fileEarly, fileLate] Level.INFO
    (nEarly + 5) (nLate + 10) fileEarly
    (List.mem_cons_self _ _)
    (by decide)
    (by decide)
    (by decide)
    (by decide)
    (by decide)
    (by decide)
    (by
      intro f hf
      rcases List.mem_cons.mp hf with rfl | hf'
      · exact ⟨[entryEarly], rfl⟩
      · rcases List.mem_cons.mp hf' with rfl | hf''
        · exact ⟨[entryLate], rfl⟩
        · exact absurd hf'' (List.not_mem_nil f))
    (by decide)
